import Mathlib

/-!
Verification of `config/custom.go`.

A shallow embedding of the configuration normalisation code of
`config/custom.go` (flexible string-list decoder, weighted endpoint parser,
generic-map canonicaliser), followed by theorems about it.

Conventions of the embedding:

* A Go `string` is a `GoString`, a list of characters.  The code only ever
  splits strings at ASCII characters, so character positions and byte
  positions play the same role.
* A Go `error` result is the `Except Error` monad; `nil` slices that the
  code distinguishes from non-nil ones are `Option`.
* `uint32` / `uint64` values are natural numbers, reduced `% 2^w` where the
  code can overflow or converts.
* Library functions (`encoding/json` tokenizer, `net/url`, `strconv`) are not
  part of `custom.go`; their behaviour is either a parameter of the
  embedding or a documented model.
-/

namespace Config

/-- A Go string. -/
abbrev GoString := List Char

/-! ## Errors -/

/-- The `Err` field of a `*strconv.NumError`. -/
inductive NumErrKind
  | ErrSyntaxKind
  | ErrRangeKind
  deriving DecidableEq, Repr

/-- The error values the code of `custom.go` returns.  The package level
`err...` variables are declared in another file of the package; each is a
distinct sentinel. -/
inductive Error
  | errHostnameMustBeSpecified
  | errSchemeMustBeSpecified
  | errEmptyUrls
  | errEndpointWeightsSpec
  | errZeroWeight
  | errKeysMustBeStrings
  /-- A `*strconv.NumError` with fields `Func`, `Num`, `Err`. -/
  | numError (fn : GoString) (num : GoString) (kind : NumErrKind)
  /-- An error of `net/url` with its message. -/
  | urlError (msg : GoString)
  /-- The error `fmt.Errorf("%s: %w", text, err)`. -/
  | wrapped (text : GoString) (err : Error)
  deriving DecidableEq, Repr

deriving instance DecidableEq for Except

/-! ## `StringSlice.UnmarshalJSON` -/

/-- A `float64`, identified by the text `fmt.Sprint` prints for it. -/
structure Float64 where
  text : GoString
  deriving DecidableEq, Repr

/-- A `json.Token` as returned by `(*json.Decoder).Token`. -/
inductive Token
  /-- A `json.Delim`: one of `[ ] { }`. -/
  | delim (c : Char)
  | bool (b : Bool)
  | float64 (f : Float64)
  /-- A `json.Number` (only produced after `UseNumber`). -/
  | number (s : GoString)
  | string (s : GoString)
  /-- The JSON `null`, a nil token. -/
  | null
  deriving DecidableEq, Repr

/-- The constants `array`, `arrayValue`, `object`, `objectKey`, `objectValue`
(an `iota` block). -/
abbrev array : Nat := 0
/-- State "expect an array value". -/
abbrev arrayValue : Nat := 1
/-- Container type "object". -/
abbrev object : Nat := 2
/-- State "expect an object key". -/
abbrev objectKey : Nat := 3
/-- State "expect an object value". -/
abbrev objectValue : Nat := 4

/-- The local variables of the loop of `UnmarshalJSON`.  The two stacks are Go
slices: the top of the stack is the LAST element. -/
structure DecState where
  typeStack : List Nat
  stateStack : List Nat
  vals : List GoString
  deriving DecidableEq, Repr

/-- The state before the loop: `typeStack := []int{array}`,
`stateStack := []int{arrayValue}`, `vals` nil. -/
def DecState.init : DecState :=
  { typeStack := [array], stateStack := [arrayValue], vals := [] }

/-- The text `fmt.Sprint(t)` of a `bool`. -/
def sprintBool (b : Bool) : GoString :=
  if b then "true".toList else "false".toList

/-- The inner `switch t := token.(type)`: the text a scalar token appends to
`vals`, if any. -/
def appendToken (vals : List GoString) : Token → List GoString
  | .bool t => vals ++ [sprintBool t]
  | .float64 t => vals ++ [t.text]
  | .number t => vals ++ [t]
  | .string t => vals ++ [t]
  | _ => vals

/-- Assignment `s[len(s)-1] = v` on a slice; `none` when the slice is empty (index out of
range). -/
def setLast (s : List Nat) (v : Nat) : Option (List Nat) :=
  if s = [] then none else some (s.dropLast ++ [v])

/-- Reslicing `s[:len(s)-1]`; `none` when the slice is empty (slice bounds out of
range). -/
def popLast (s : List Nat) : Option (List Nat) :=
  if s = [] then none else some s.dropLast

/-- One iteration of the loop of `UnmarshalJSON` on a token that `dec.Token()`
returned without error.  `none` is a run-time panic. -/
def step (st : DecState) (token : Token) : Option DecState :=
  match token with
  | .delim delim =>
    if delim = '[' then
      some { st with typeStack := st.typeStack ++ [array],
                     stateStack := st.stateStack ++ [arrayValue] }
    else if delim = '{' then
      some { st with typeStack := st.typeStack ++ [object],
                     stateStack := st.stateStack ++ [objectKey] }
    else if delim = ']' ∨ delim = '}' then
      match popLast st.typeStack, popLast st.stateStack with
      | some ts, some ss => some { st with typeStack := ts, stateStack := ss }
      | _, _ => none
    else some st
  | tok =>
    match st.stateStack.getLast? with
    | none => none
    | some top =>
      if top = objectKey then
        (setLast st.stateStack objectValue).map
          (fun ss => { st with stateStack := ss })
      else if top = objectValue then
        (setLast st.stateStack objectKey).map
          (fun ss => { st with stateStack := ss, vals := appendToken st.vals tok })
      else
        some { st with vals := appendToken st.vals tok }

/-- The loop of `UnmarshalJSON` over the tokens the decoder yields before its
first error (end of input included). -/
def run : DecState → List Token → Option DecState
  | st, [] => some st
  | st, token :: rest =>
    match step st token with
    | none => none
    | some st1 => run st1 rest

/-- Method `StringSlice.UnmarshalJSON`, as a function of the token stream of `data`:
the value stored in `*slc`.  The returned error is always nil; `none` is a
panic. -/
def UnmarshalJSON (toks : List Token) : Option (List GoString) :=
  (run DecState.init toks).map (fun st => st.vals)

/-- A well-formed JSON document.  Object members are kept in document
order. -/
inductive JSON
  | null
  | bool (b : Bool)
  | num (f : Float64)
  | str (s : GoString)
  | arr (elems : List JSON)
  | obj (members : List (GoString × JSON))

mutual
/-- The token stream `(*json.Decoder).Token` yields for a well-formed document
(commas and colons are consumed by the decoder and never returned). -/
def JSON.tokens : JSON → List Token
  | .null => [Token.null]
  | .bool b => [Token.bool b]
  | .num f => [Token.float64 f]
  | .str s => [Token.string s]
  | .arr elems => Token.delim '[' :: (JSON.tokensElems elems ++ [Token.delim ']'])
  | .obj members => Token.delim '{' :: (JSON.tokensMembers members ++ [Token.delim '}'])
/-- Tokens of the elements of an array. -/
def JSON.tokensElems : List JSON → List Token
  | [] => []
  | x :: xs => JSON.tokens x ++ JSON.tokensElems xs
/-- Tokens of the members of an object: the key, then the value. -/
def JSON.tokensMembers : List (GoString × JSON) → List Token
  | [] => []
  | (k, v) :: rest => Token.string k :: (JSON.tokens v ++ JSON.tokensMembers rest)
end

mutual
/-- The recursive flattening rule of the specification: a scalar gives its
text, `null` nothing, an array the flattenings of its elements, an object the
flattenings of its values. -/
def JSON.flatten : JSON → List GoString
  | .null => []
  | .bool b => [sprintBool b]
  | .num f => [f.text]
  | .str s => [s]
  | .arr elems => JSON.flattenElems elems
  | .obj members => JSON.flattenMembers members
/-- Flattening of the elements of an array, in order. -/
def JSON.flattenElems : List JSON → List GoString
  | [] => []
  | x :: xs => JSON.flatten x ++ JSON.flattenElems xs
/-- Flattening of the values of an object, in document order. -/
def JSON.flattenMembers : List (GoString × JSON) → List GoString
  | [] => []
  | (_, v) :: rest => JSON.flatten v ++ JSON.flattenMembers rest
end

/-! ## `weightedString` -/

/-- Function `strings.IndexRune(s, r)` for an ASCII rune: the position of the
first occurrence of `r`, `none` for the result `-1`. -/
def IndexRune : GoString → Char → Option Nat
  | [], _ => none
  | c :: cs, r => if c = r then some 0 else (IndexRune cs r).map (· + 1)

/-- The largest `uint64`. -/
def maxUint64 : Nat := 2 ^ 64 - 1

/-- Helper `lower` of `strconv`: `c | ('x' - 'X')`. -/
def lower (c : Nat) : Nat := c ||| 32

/-- The digit value `strconv.ParseUint` assigns to a byte, `none` for a byte
that is neither a digit nor a letter. -/
def digitVal (c : Char) : Option Nat :=
  if 48 ≤ c.toNat ∧ c.toNat ≤ 57 then some (c.toNat - 48)
  else if 97 ≤ lower c.toNat ∧ lower c.toNat ≤ 122 then some (lower c.toNat - 97 + 10)
  else none

/-- The digit loop of `strconv.ParseUint` (base not 0, so no underscores):
`n` is the value accumulated so far. -/
def parseUintLoop (base cutoff maxVal : Nat) : List Char → Nat → Except NumErrKind Nat
  | [], n => .ok n
  | c :: cs, n =>
    match digitVal c with
    | none => .error .ErrSyntaxKind
    | some d =>
      if d ≥ base then .error .ErrSyntaxKind
      else if n ≥ cutoff then .error .ErrRangeKind
      else
        let n0 := (n * base) % 2 ^ 64
        let n1 := (n0 + d) % 2 ^ 64
        if n1 < n0 ∨ n1 > maxVal then .error .ErrRangeKind
        else parseUintLoop base cutoff maxVal cs n1

/-- Model of the Go standard library function `strconv.ParseUint(s, base,
bitSize)` for `2 ≤ base ≤ 36` and `1 ≤ bitSize ≤ 64`. -/
def ParseUint (s : GoString) (base bitSize : Nat) : Except Error Nat :=
  if s = [] then .error (.numError "ParseUint".toList s .ErrSyntaxKind)
  else
    match parseUintLoop base (maxUint64 / base + 1) (2 ^ bitSize - 1) s 0 with
    | .error kind => .error (.numError "ParseUint".toList s kind)
    | .ok n => .ok n

/-- Function `weightedString`: parses a URL followed by an optional weight.
The results are the target text and the `uint32` weight. -/
def weightedString (str : GoString) : Except Error (GoString × Nat) :=
  match IndexRune str ',' with
  | none => .ok (str, 0)
  | some i =>
    match ParseUint (str.drop (i + 1)) 10 32 with
    | .error err => .error err
    | .ok w =>
      if w = 0 then .error .errZeroWeight
      else .ok (str.take i, w % 2 ^ 32)

/-! ## `net/url` -/

/-- The fields of `url.Userinfo`. -/
structure Userinfo where
  username : GoString
  password : GoString
  passwordSet : Bool
  deriving DecidableEq, Repr

/-- The fields of `url.URL` the model of `url.Parse` fills. `Opaq` is the
field for the rootless ("opaque") part. -/
structure URL where
  Scheme : GoString
  Opaq : GoString
  User : Option Userinfo
  Host : GoString
  Path : GoString
  ForceQuery : Bool
  RawQuery : GoString
  Fragment : GoString
  deriving DecidableEq, Repr

/-- Helper `validOptionalPort` of `net/url`: the text is empty or a colon
followed by digits only. -/
def validOptionalPort (port : GoString) : Bool :=
  match port with
  | [] => true
  | c :: rest => c = ':' && rest.all (fun b => decide (48 ≤ b.toNat ∧ b.toNat ≤ 57))

/-- Position of the last occurrence of a character (`strings.LastIndexByte`),
`none` for `-1`. -/
def LastIndexByte : GoString → Char → Option Nat
  | [], _ => none
  | c :: cs, r =>
    match LastIndexByte cs r with
    | some i => some (i + 1)
    | none => if c = r then some 0 else none

/-- Method `(*url.URL).Hostname`: `u.Host` without a valid port and without
the square brackets of an IP literal. -/
def URL.Hostname (u : URL) : GoString :=
  let host0 := u.Host
  let host1 :=
    match LastIndexByte host0 ':' with
    | some colon => if validOptionalPort (host0.drop colon) then host0.take colon else host0
    | none => host0
  if host1.head? = some '[' ∧ host1.getLast? = some ']' then
    (host1.drop 1).take (host1.length - 2)
  else host1

/-- The Go standard library functions `url.Parse` and `(*url.URL).String`, on
which the code depends. -/
structure NetURL where
  Parse : GoString → Except Error URL
  String : URL → GoString

/-- Function `strings.Cut(s, sep)` for a one-character separator: the text
before and after the first `sep`, and whether `sep` was found. -/
def Cut (s : GoString) (sep : Char) : GoString × GoString × Bool :=
  match IndexRune s sep with
  | none => (s, [], false)
  | some i => (s.take i, s.drop (i + 1), true)

/-- Helper `getScheme` of `net/url`, as a loop over the bytes left to read at
position `i` of `rawURL`: the scheme and what follows the colon. -/
def getSchemeLoop (rawURL : GoString) : List Char → Nat → Except Error (GoString × GoString)
  | [], _ => .ok ([], rawURL)
  | c :: cs, i =>
    if c.isAlpha then getSchemeLoop rawURL cs (i + 1)
    else if c.isDigit ∨ c = '+' ∨ c = '-' ∨ c = '.' then
      if i = 0 then .ok ([], rawURL) else getSchemeLoop rawURL cs (i + 1)
    else if c = ':' then
      if i = 0 then .error (.urlError "missing protocol scheme".toList)
      else .ok (rawURL.take i, rawURL.drop (i + 1))
    else .ok ([], rawURL)

/-- Helper `parseAuthority` of `net/url`: the user information before the last
`@` and the host after it; a port that is not numeric is an error. -/
def parseAuthority (authority : GoString) : Except Error (Option Userinfo × GoString) :=
  let at_ := LastIndexByte authority '@'
  let host := match at_ with
    | none => authority
    | some i => authority.drop (i + 1)
  let portOk :=
    if host.head? = some '[' then
      match LastIndexByte host ']' with
      | none => false
      | some i => validOptionalPort (host.drop (i + 1))
    else
      match LastIndexByte host ':' with
      | none => true
      | some i => validOptionalPort (host.drop i)
  if host.head? = some '[' ∧ LastIndexByte host ']' = none then
    .error (.urlError "missing closing bracket in host".toList)
  else if !portOk then .error (.urlError "invalid port after host".toList)
  else
    match at_ with
    | none => .ok (none, host)
    | some i =>
      let userinfo := authority.take i
      let (username, password, found) := Cut userinfo ':'
      .ok (some { username := username, password := password, passwordSet := found }, host)

/-- Model of the Go standard library function `url.Parse`.  It follows
`Parse`, `parse`, `getScheme` and `parseAuthority` of `net/url` for texts
without percent-escapes: escapes are not decoded, and the characters of the
host and of the user information are not validated. -/
def urlParse (rawURL : GoString) : Except Error URL :=
  let (u, frag, _) := Cut rawURL '#'
  if u.any (fun b => decide (b.toNat < 32 ∨ b.toNat = 127)) then
    .error (.urlError "invalid control character in URL".toList)
  else if u = ['*'] then
    .ok { Scheme := [], Opaq := [], User := none, Host := [], Path := ['*'],
          ForceQuery := false, RawQuery := [], Fragment := frag }
  else
    match getSchemeLoop u u 0 with
    | .error err => .error err
    | .ok (scheme0, rest0) =>
      let scheme := scheme0.map Char.toLower
      let (rest, forceQuery, rawQuery) :=
        if rest0.getLast? = some '?' ∧ rest0.count '?' = 1 then (rest0.dropLast, true, [])
        else ((Cut rest0 '?').1, false, (Cut rest0 '?').2.1)
      if rest.head? ≠ some '/' ∧ scheme ≠ [] then
        .ok { Scheme := scheme, Opaq := rest, User := none, Host := [], Path := [],
              ForceQuery := forceQuery, RawQuery := rawQuery, Fragment := frag }
      else if rest.head? ≠ some '/' ∧ ':' ∈ (Cut rest '/').1 then
        .error (.urlError "first path segment in URL cannot contain colon".toList)
      else if (scheme ≠ [] ∨ rest.take 3 ≠ "///".toList) ∧ rest.take 2 = "//".toList then
        let authority0 := rest.drop 2
        let (authority, path) :=
          match IndexRune authority0 '/' with
          | none => (authority0, [])
          | some i => (authority0.take i, authority0.drop i)
        match parseAuthority authority with
        | .error err => .error err
        | .ok (user, host) =>
          .ok { Scheme := scheme, Opaq := [], User := user, Host := host, Path := path,
                ForceQuery := forceQuery, RawQuery := rawQuery, Fragment := frag }
      else
        .ok { Scheme := scheme, Opaq := [], User := none, Host := [], Path := rest,
              ForceQuery := forceQuery, RawQuery := rawQuery, Fragment := frag }

/-- Model of the Go standard library method `(*url.URL).String`, for a URL
none of whose parts needs percent-escaping. -/
def urlString (u : URL) : GoString :=
  let s1 := if u.Scheme ≠ [] then u.Scheme ++ [':'] else []
  let s2 :=
    if u.Opaq ≠ [] then s1 ++ u.Opaq
    else
      let s3 :=
        if u.Scheme ≠ [] ∨ u.Host ≠ [] ∨ u.User.isSome then
          (if u.Host ≠ [] ∨ u.Path ≠ [] ∨ u.User.isSome then s1 ++ "//".toList else s1)
            ++ (match u.User with
                | none => []
                | some ui =>
                  ui.username ++ (if ui.passwordSet then ':' :: ui.password else []) ++ ['@'])
            ++ u.Host
        else s1
      let s4 := if u.Path ≠ [] ∧ u.Path.head? ≠ some '/' ∧ u.Host ≠ [] then s3 ++ ['/'] else s3
      let s5 := if s4 = [] ∧ ':' ∈ (Cut u.Path '/').1 then "./".toList else s4
      s5 ++ u.Path
  let s6 := if u.ForceQuery ∨ u.RawQuery ≠ [] then s2 ++ ['?'] ++ u.RawQuery else s2
  if u.Fragment ≠ [] then s6 ++ ['#'] ++ u.Fragment else s6

/-- The `net/url` library as modelled by `urlParse` and `urlString`. -/
def goURL : NetURL := { Parse := urlParse, String := urlString }

/-! ## Weighted URLs -/

/-- Type `WeightedURL`: an upstream URL with its load balancing weight; zero
means not assigned. -/
structure WeightedURL where
  URL : URL
  LbWeight : Nat
  deriving DecidableEq, Repr

/-- Method `(*WeightedURL).Validate`; `none` is the nil error. -/
def WeightedURL.Validate (u : WeightedURL) : Option Error :=
  if u.URL.Hostname = [] then some .errHostnameMustBeSpecified
  else if u.URL.Scheme = [] then some .errSchemeMustBeSpecified
  else none

/-- Function `ParseWeightedURL`: parses a url that has an optional weight
appended to it. -/
def ParseWeightedURL (lib : NetURL) (dst : GoString) : Except Error WeightedURL :=
  match weightedString dst with
  | .error err => .error err
  | .ok (to_, w) =>
    match lib.Parse to_ with
    | .error err => .error (.wrapped to_ err)
    | .ok u =>
      if u.Hostname = [] then .error .errHostnameMustBeSpecified
      else .ok { URL := u, LbWeight := w }

/-- The decimal text of a natural number (`%d`). -/
def decimal (n : Nat) : GoString := Nat.toDigits 10 n

/-- Method `(*WeightedURL).String`. -/
def WeightedURL.String (lib : NetURL) (u : WeightedURL) : GoString :=
  let str := lib.String u.URL
  if u.LbWeight = 0 then str
  else "\x7burl=".toList ++ str ++ ", weight=".toList ++ decimal u.LbWeight ++ "\x7d".toList

/-- The loop of `WeightedURLs.Validate` with its two flags. -/
def validateLoop (lib : NetURL) : List WeightedURL → Bool → Bool → Except Error Bool
  | [], noWeight, hasWeight =>
    if noWeight = hasWeight then .error .errEndpointWeightsSpec
    else if noWeight then .ok false
    else .ok true
  | u :: rest, noWeight, hasWeight =>
    match u.Validate with
    | some err => .error (.wrapped (u.String lib) err)
    | none =>
      if u.LbWeight = 0 then validateLoop lib rest true hasWeight
      else validateLoop lib rest noWeight true

/-- Method `WeightedURLs.Validate`: checks that URLs are valid, and either all
or none have weights assigned.  The result is `HasWeight`. -/
def WeightedURLs.Validate (lib : NetURL) (urls : List WeightedURL) : Except Error Bool :=
  if urls.length = 0 then .error .errEmptyUrls
  else validateLoop lib urls false false

/-- The loop of `ParseWeightedUrls`; `out` is the slice built so far. -/
def parseLoop (lib : NetURL) : List GoString → List WeightedURL → Except Error (List WeightedURL)
  | [], out => .ok out
  | dst :: rest, out =>
    match ParseWeightedURL lib dst with
    | .error err => .error err
    | .ok u => parseLoop lib rest (out ++ [u])

/-- Function `ParseWeightedUrls`. -/
def ParseWeightedUrls (lib : NetURL) (urls : List GoString) : Except Error (List WeightedURL) :=
  match parseLoop lib urls [] with
  | .error err => .error err
  | .ok out =>
    match WeightedURLs.Validate lib out with
    | .error err => .error err
    | .ok _ => .ok out

/-- Method `WeightedURLs.Flatten`: the targets and the weights; the weights
are `none` for the nil slice. -/
def WeightedURLs.Flatten (lib : NetURL) (urls : List WeightedURL) :
    Except Error (List GoString × Option (List Nat)) :=
  match WeightedURLs.Validate lib urls with
  | .error err => .error err
  | .ok hasWeight =>
    let str := urls.map (fun u => lib.String u.URL)
    let wghts := urls.map (fun u => u.LbWeight)
    if !hasWeight then .ok (str, none)
    else .ok (str, some wghts)

/-! ## `serializable` -/

/-- A Go value that can be the key of a `map[interface{}]interface{}`: keys
must be comparable, so a key is never a map or a slice. -/
inductive Scalar
  | nil
  | bool (b : Bool)
  | int (i : Int)
  | str (s : GoString)
  deriving DecidableEq, Repr

/-- The dynamic values (`interface{}`) the decoders hand to `serializable`.
A map is the list of its entries, whose keys are pairwise distinct (see
`Value.wf`); Go iterates over them in an unspecified order. -/
inductive Value
  | scalar (s : Scalar)
  /-- A `[]string`. -/
  | strSlice (xs : List GoString)
  /-- A `[]interface{}`. -/
  | slice (xs : List Value)
  /-- A `map[interface{}]interface{}`. -/
  | mapII (kvs : List (Scalar × Value))
  /-- A `map[string]interface{}`. -/
  | mapSI (kvs : List (GoString × Value))

/-- Assignment `m[k] = v` on a map kept as its list of entries. -/
def mapSet {α β : Type} [DecidableEq α] : List (α × β) → α → β → List (α × β)
  | [], k, v => [(k, v)]
  | (k1, v1) :: rest, k, v =>
    if k1 = k then (k, v) :: rest else (k1, v1) :: mapSet rest k v

mutual
/-- Function `serializable`: converts mapstructure nested map into
`map[string]interface{}` that is serializable to JSON. -/
def serializable : Value → Except Error Value
  | .mapII typed =>
    match serializableEntries typed [] with
    | .error err => .error err
    | .ok m => .ok (.mapSI m)
  | .slice typed =>
    match serializableElems typed [] with
    | .error err => .error err
    | .ok out => .ok (.slice out)
  | v => .ok v
/-- The loop `for k, v := range typed` of the map case; `m` is the map built
so far.  Go ranges over a map in an unspecified order; the entries are visited
here in the order of the list, and the outcome does not depend on the order:
the only error is `errKeysMustBeStrings`, and on success `m` receives one
entry for each entry of `typed`. -/
def serializableEntries : List (Scalar × Value) → List (GoString × Value) →
    Except Error (List (GoString × Value))
  | [], m => .ok m
  | (k, v) :: rest, m =>
    match k with
    | .str kstr =>
      match serializable v with
      | .error err => .error err
      | .ok val => serializableEntries rest (mapSet m kstr val)
    | _ => .error .errKeysMustBeStrings
/-- The loop `for _, elem := range typed` of the slice case; `out` is the
slice built so far. -/
def serializableElems : List Value → List Value → Except Error (List Value)
  | [], out => .ok out
  | elem :: rest, out =>
    match serializable elem with
    | .error err => .error err
    | .ok val => serializableElems rest (out ++ [val])
end

/-! ## Policy decoding -/

/-- An Envoy `Cluster` message (`envoy_config_cluster_v3.Cluster`), identified
by its protojson text. -/
structure Cluster where
  text : GoString
  deriving DecidableEq, Repr

/-- The values of the map `parsePolicy` builds: a value copied from the source
record, the `[]WeightedURL` made by `parseTo`, or the `*Cluster` made by
`parseEnvoyClusterOpts`. -/
inductive PolicyValue
  | raw (v : Value)
  | weightedURLs (urls : List WeightedURL)
  | cluster (c : Cluster)

/-- The errors the policy decoding functions return: an error of `custom.go`
proper, an error of a library with its message, or one made by `fmt.Errorf`. -/
inductive DecodeError
  | config (err : Error)
  /-- An error of `encoding/json`. -/
  | json (msg : GoString)
  /-- An error of `protojson`. -/
  | proto (msg : GoString)
  /-- The error `fmt.Errorf("base64 policy data: expecting 1, got %d", got)`. -/
  | expectingOne (got : Nat)
  /-- The error `fmt.Errorf("base64 decoding policy data: %w", err)`. -/
  | base64Decoding (msg : GoString)
  /-- The error `fmt.Errorf("parsing base64-encoded policy data as yaml: %w", err)`. -/
  | yamlParsing (msg : GoString)
  /-- A run-time panic (index out of range) instead of a result. -/
  | runtimePanic

/-- The package-level constants `toKey` and `envoyOptsKey`; they are declared
in another file of the package. -/
structure Keys where
  toKey : GoString
  envoyOptsKey : GoString

/-- The library functions `parsePolicy` depends on: `net/url`, `json.Marshal`
(as the document it writes, or the message of its error) and
`protoPartial.Unmarshal` into a new `Cluster` (`protoPartial` is a variable of
the package declared in another file). -/
structure Libs where
  url : NetURL
  Marshal : Value → Except GoString JSON
  ProtoUnmarshal : JSON → Except GoString Cluster

/-- Lookup `m[k]` in a map kept as its list of entries. -/
def mapGet {α β : Type} [DecidableEq α] : List (α × β) → α → Option β
  | [], _ => none
  | (k1, v1) :: rest, k => if k1 = k then some v1 else mapGet rest k

/-- Function `parseTo`: re-encodes the raw value as JSON, decodes that into a
`StringSlice` and parses the texts as weighted URLs.  `json.Unmarshal` checks
the syntax of the bytes, which `json.Marshal` has just written, and hands all
of them to `StringSlice.UnmarshalJSON`, which returns nil: it never fails. -/
def parseTo (lib : Libs) (raw : Value) : Except DecodeError (List WeightedURL) :=
  match lib.Marshal raw with
  | .error msg => .error (.json msg)
  | .ok rawBS =>
    match UnmarshalJSON rawBS.tokens with
    | none => .error .runtimePanic
    | some slc =>
      match ParseWeightedUrls lib.url slc with
      | .error err => .error (.config err)
      | .ok urls => .ok urls

/-- Function `parseJSONPB` at the destination `new(Cluster)` with the options
`protoPartial`. -/
def parseJSONPB (lib : Libs) (src : List (GoString × Value)) : Except DecodeError Cluster :=
  match lib.Marshal (.mapSI src) with
  | .error msg => .error (.json msg)
  | .ok data =>
    match lib.ProtoUnmarshal data with
    | .error msg => .error (.proto msg)
    | .ok c => .ok c

/-- Function `parseEnvoyClusterOpts`: parses `src` as an Envoy cluster
specification. -/
def parseEnvoyClusterOpts (lib : Libs) (src : List (GoString × Value)) :
    Except DecodeError Cluster :=
  parseJSONPB lib src

/-- The loop `for k, v := range src` of `parsePolicy`; `out` is the map built
so far.  Go ranges over the map in an unspecified order; the entries are
visited here in the order of the list.  At most one entry has the key `toKey`,
so the outcome does not depend on the order. -/
def parsePolicyLoop (lib : Libs) (keys : Keys) :
    List (GoString × Value) → List (GoString × PolicyValue) →
    Except DecodeError (List (GoString × PolicyValue))
  | [], out => .ok out
  | (k, v) :: rest, out =>
    if k = keys.toKey then
      match parseTo lib v with
      | .error err => .error err
      | .ok urls => parsePolicyLoop lib keys rest (mapSet out k (.weightedURLs urls))
    else parsePolicyLoop lib keys rest (mapSet out k (.raw v))

/-- Function `parsePolicy`. -/
def parsePolicy (lib : Libs) (keys : Keys) (src : List (GoString × Value)) :
    Except DecodeError (List (GoString × PolicyValue)) :=
  match parsePolicyLoop lib keys src [] with
  | .error err => .error err
  | .ok out =>
    match parseEnvoyClusterOpts lib src with
    | .error err => .error err
    | .ok c => .ok (mapSet out keys.envoyOptsKey (.cluster c))

/-- The requested target type `t` of a decode hook, as far as the hooks tell
types apart: `Policy`, `[]Policy`, or any other type (by name). -/
inductive GoType
  | Policy
  | PolicySlice
  | other (name : GoString)
  deriving DecidableEq, Repr

/-- What a decode hook returns: the input value unchanged, the
`[]map[interface{}]interface{}` decoded from a policy block, or the map built
by `parsePolicy`. -/
inductive HookValue
  | value (v : Value)
  | maps (out : List (List (Scalar × Value)))
  | policy (out : List (GoString × PolicyValue))

/-- The library functions `DecodePolicyBase64Hook` depends on:
`base64.StdEncoding.DecodeString` and `yaml.Unmarshal` into a
`[]map[interface{}]interface{}`, each with the message of its error. -/
structure BlockLibs where
  Base64Decode : GoString → Except GoString GoString
  YamlUnmarshal : GoString → Except GoString (List (List (Scalar × Value)))

/-- The hook returned by `DecodePolicyBase64Hook()`, applied to the types `f`,
`t` and the input `data`. -/
def DecodePolicyBase64Hook (lib : BlockLibs) (_f t : GoType) (data : Value) :
    Except DecodeError HookValue :=
  if t ≠ .PolicySlice then .ok (.value data)
  else
    match data with
    | .strSlice str =>
      if str.length ≠ 1 then .error (.expectingOne str.length)
      else
        match str.head? with
        | none => .error .runtimePanic
        | some str0 =>
          match lib.Base64Decode str0 with
          | .error msg => .error (.base64Decoding msg)
          | .ok bytes =>
            match lib.YamlUnmarshal bytes with
            | .error msg => .error (.yamlParsing msg)
            | .ok out => .ok (.maps out)
    | _ => .ok (.value data)

/-- The hook returned by `DecodePolicyHookFunc()`, applied to the types `f`,
`t` and the input `data`. -/
def DecodePolicyHookFunc (lib : Libs) (keys : Keys) (_f t : GoType) (data : Value) :
    Except DecodeError HookValue :=
  if t ≠ .Policy then .ok (.value data)
  else
    match serializable data with
    | .error err => .error (.config err)
    | .ok mp =>
      match mp with
      | .mapSI ms =>
        match parsePolicy lib keys ms with
        | .error err => .error err
        | .ok out => .ok (.policy out)
      | _ => .error (.config .errKeysMustBeStrings)

/-! ## Specification-level notions -/

/-- An ASCII decimal digit. -/
def isDigitChar (c : Char) : Bool := decide (48 ≤ c.toNat ∧ c.toNat ≤ 57)

/-- A base-10 unsigned numeral: one or more decimal digits. -/
def isNumeral (s : GoString) : Bool := !s.isEmpty && s.all isDigitChar

/-- The value of a base-10 numeral. -/
def numeralValue (s : GoString) : Nat :=
  s.foldl (fun n c => 10 * n + (c.toNat - 48)) 0

/-- A weight text the specification accepts: a base-10 unsigned numeral with
value in `1 .. 2^32 - 1`. -/
def validWeight (s : GoString) : Bool :=
  isNumeral s && decide (1 ≤ numeralValue s ∧ numeralValue s ≤ 2 ^ 32 - 1)

/-- The text before the first comma (the whole text when there is none). -/
def beforeFirstComma (s : GoString) : GoString := s.takeWhile (fun c => c != ',')

/-- The text after the first comma (empty when there is none). -/
def afterFirstComma (s : GoString) : GoString := (s.dropWhile (fun c => c != ',')).drop 1

/-- The text before the last comma. -/
def beforeLastComma (s : GoString) : GoString :=
  ((s.reverse.dropWhile (fun c => c != ',')).drop 1).reverse

/-- The text after the last comma. -/
def afterLastComma (s : GoString) : GoString :=
  (s.reverse.takeWhile (fun c => c != ',')).reverse

/-- Whether a map key is a string (the type assertion `k.(string)`). -/
def Scalar.isStr : Scalar → Bool
  | .str _ => true
  | _ => false

mutual
/-- Whether the value contains, at any nesting depth, a map with a key that is
not a string. -/
def Value.hasNonStringKey : Value → Bool
  | .slice xs => Value.hasNonStringKeyElems xs
  | .mapII kvs => Value.hasNonStringKeyEntries kvs
  | .mapSI kvs => Value.hasNonStringKeyMembers kvs
  | _ => false
/-- Some element of a slice contains a non-string key. -/
def Value.hasNonStringKeyElems : List Value → Bool
  | [] => false
  | x :: xs => x.hasNonStringKey || Value.hasNonStringKeyElems xs
/-- Some entry of a `map[interface{}]interface{}` has a non-string key or a
value that contains one. -/
def Value.hasNonStringKeyEntries : List (Scalar × Value) → Bool
  | [] => false
  | (k, v) :: rest => !k.isStr || v.hasNonStringKey || Value.hasNonStringKeyEntries rest
/-- Some value of a `map[string]interface{}` contains a non-string key. -/
def Value.hasNonStringKeyMembers : List (GoString × Value) → Bool
  | [] => false
  | (_, v) :: rest => v.hasNonStringKey || Value.hasNonStringKeyMembers rest
end

mutual
/-- Whether the value is built from string-keyed maps (`map[string]interface{}`),
lists and scalars only, at every depth: it holds no
`map[interface{}]interface{}`. -/
def Value.stringKeyed : Value → Bool
  | .slice xs => Value.stringKeyedElems xs
  | .mapII _ => false
  | .mapSI kvs => Value.stringKeyedMembers kvs
  | _ => true
/-- Every element of a slice is string-keyed. -/
def Value.stringKeyedElems : List Value → Bool
  | [] => true
  | x :: xs => x.stringKeyed && Value.stringKeyedElems xs
/-- Every value of a `map[string]interface{}` is string-keyed. -/
def Value.stringKeyedMembers : List (GoString × Value) → Bool
  | [] => true
  | (_, v) :: rest => v.stringKeyed && Value.stringKeyedMembers rest
end

mutual
/-- Well-formedness of a value as a Go value: the keys of every map, at every
depth, are pairwise distinct. -/
def Value.wf : Value → Bool
  | .slice xs => Value.wfElems xs
  | .mapII kvs => decide ((kvs.map Prod.fst).Nodup) && Value.wfEntries kvs
  | .mapSI kvs => decide ((kvs.map Prod.fst).Nodup) && Value.wfMembers kvs
  | _ => true
/-- Every element of a slice is well-formed. -/
def Value.wfElems : List Value → Bool
  | [] => true
  | x :: xs => x.wf && Value.wfElems xs
/-- Every value of a `map[interface{}]interface{}` is well-formed. -/
def Value.wfEntries : List (Scalar × Value) → Bool
  | [] => true
  | (_, v) :: rest => v.wf && Value.wfEntries rest
/-- Every value of a `map[string]interface{}` is well-formed. -/
def Value.wfMembers : List (GoString × Value) → Bool
  | [] => true
  | (_, v) :: rest => v.wf && Value.wfMembers rest
end

mutual
/-- The structure of a value, up to the static key type of its maps: a
`map[string]interface{}` is read as the `map[interface{}]interface{}` with the
same (string) keys.  Two values are structurally equal when their shapes are
equal: same keys with structurally equal values under each key for maps, same
length and element order for lists, equal scalars. -/
def Value.shape : Value → Value
  | .slice xs => .slice (Value.shapeElems xs)
  | .mapII kvs => .mapII (Value.shapeEntries kvs)
  | .mapSI kvs => .mapII (Value.shapeMembers kvs)
  | v => v
/-- Shapes of the elements of a slice. -/
def Value.shapeElems : List Value → List Value
  | [] => []
  | x :: xs => x.shape :: Value.shapeElems xs
/-- Shapes of the entries of a `map[interface{}]interface{}`. -/
def Value.shapeEntries : List (Scalar × Value) → List (Scalar × Value)
  | [] => []
  | (k, v) :: rest => (k, v.shape) :: Value.shapeEntries rest
/-- Shapes of the entries of a `map[string]interface{}`. -/
def Value.shapeMembers : List (GoString × Value) → List (Scalar × Value)
  | [] => []
  | (k, v) :: rest => (Scalar.str k, v.shape) :: Value.shapeMembers rest
end

mutual
/-- Whether the value is built from `map[interface{}]interface{}`,
`[]interface{}` and scalars only, as a YAML decoder produces it: it holds no
`map[string]interface{}`. -/
def Value.decoded : Value → Bool
  | .slice xs => Value.decodedElems xs
  | .mapII kvs => Value.decodedEntries kvs
  | .mapSI _ => false
  | _ => true
/-- Every element of a slice is a decoded value. -/
def Value.decodedElems : List Value → Bool
  | [] => true
  | x :: xs => x.decoded && Value.decodedElems xs
/-- Every value of a `map[interface{}]interface{}` is a decoded value. -/
def Value.decodedEntries : List (Scalar × Value) → Bool
  | [] => true
  | (_, v) :: rest => v.decoded && Value.decodedEntries rest
end

/-- Whether the token is an opening delimiter, `[` or `{`. -/
def Token.isOpen : Token → Bool
  | .delim c => c == '[' || c == '{'
  | _ => false

/-- Whether the token is a closing delimiter, `]` or `}`. -/
def Token.isClose : Token → Bool
  | .delim c => c == ']' || c == '}'
  | _ => false

/-- The number of opening delimiters of a token stream. -/
def opens (toks : List Token) : Nat := toks.countP Token.isOpen

/-- The number of closing delimiters of a token stream. -/
def closes (toks : List Token) : Nat := toks.countP Token.isClose

/-- No prefix of the token stream contains more closing delimiters than
opening delimiters. -/
def noExcessClose (toks : List Token) : Bool :=
  toks.inits.all (fun p => decide (closes p ≤ opens p))

/-- The error `StringSlice.UnmarshalJSON` returns, as a function of the token
stream of `data`: the function ends in `return nil` whatever the tokens were.
The outer `none` is a panic. -/
def UnmarshalJSONError (toks : List Token) : Option (Option Error) :=
  (run DecState.init toks).map (fun _ => none)

/-- A bare non-null scalar: a string, a boolean or a number. -/
def JSON.isScalar : JSON → Bool
  | .bool _ => true
  | .num _ => true
  | .str _ => true
  | _ => false

/-- The text form of a scalar: a string verbatim, a boolean as `true` or
`false`, a number as `fmt.Sprint` prints its `float64`. -/
def JSON.text : JSON → GoString
  | .bool b => sprintBool b
  | .num f => f.text
  | .str s => s
  | _ => []

/-- A digit string without its trailing zeros. -/
def trimZeros (ds : List Char) : List Char :=
  (ds.reverse.dropWhile (fun c => c == '0')).reverse

/-- Model of the Go standard library call `fmt.Sprint(float64(n))` for a
natural number `n < 2^53`, which `float64` represents exactly.  The verb `%v`
formats a float as `strconv.FormatFloat(f, 'g', -1, 64)`: the shortest digits
that identify the value (for such an `n`, its decimal digits without trailing
zeros), in the `%e` form `d.ddde+XX` when the decimal exponent is 6 or more,
and as plain digits otherwise. -/
def sprintFloatNat (n : Nat) : GoString :=
  let ds := Nat.toDigits 10 n
  let exp := ds.length - 1
  if exp < 6 then ds
  else
    let mant :=
      match trimZeros ds with
      | [] => ['0']
      | d :: more => if more = [] then [d] else d :: '.' :: more
    mant ++ "e+".toList ++ (if exp < 10 then '0' :: Nat.toDigits 10 exp else Nat.toDigits 10 exp)

/-- The `float64` the JSON decoder returns for the decimal literal of a
natural number `n < 2^53`. -/
def Float64.ofNat (n : Nat) : Float64 := { text := sprintFloatNat n }

/-! ## Models of the libraries of the policy decoding -/

/-- The order of Go strings (bytewise), by which `json.Marshal` sorts the keys
of a map. -/
def strLe : GoString → GoString → Bool
  | [], _ => true
  | _ :: _, [] => false
  | a :: as, b :: bs => decide (a.toNat < b.toNat) || (a == b && strLe as bs)

/-- Insertion of a member into a list of members sorted by key. -/
def insertMember (m : GoString × JSON) : List (GoString × JSON) → List (GoString × JSON)
  | [] => [m]
  | x :: xs => if strLe m.1 x.1 then m :: x :: xs else x :: insertMember m xs

/-- The members sorted by key. -/
def sortMembers : List (GoString × JSON) → List (GoString × JSON)
  | [] => []
  | m :: ms => insertMember m (sortMembers ms)

/-- The `float64` the JSON decoder returns for the decimal literal of an
integer of absolute value below `2^53`. -/
def Float64.ofInt (i : Int) : Float64 :=
  if i < 0 then { text := '-' :: sprintFloatNat i.natAbs }
  else { text := sprintFloatNat i.toNat }

mutual
/-- Model of the Go standard library function `json.Marshal`, as the document
it writes: a map becomes an object with its keys sorted, a slice an array, and
a `map[interface{}]interface{}` is an unsupported type. -/
def jsonMarshal : Value → Except GoString JSON
  | .scalar .nil => .ok .null
  | .scalar (.bool b) => .ok (.bool b)
  | .scalar (.int i) => .ok (.num (Float64.ofInt i))
  | .scalar (.str x) => .ok (.str x)
  | .strSlice xs => .ok (.arr (xs.map JSON.str))
  | .slice xs =>
    match jsonMarshalElems xs with
    | .error msg => .error msg
    | .ok elems => .ok (.arr elems)
  | .mapSI kvs =>
    match jsonMarshalMembers kvs with
    | .error msg => .error msg
    | .ok members => .ok (.obj (sortMembers members))
  | .mapII _ => .error "json: unsupported type: map[interface \x7b\x7d]interface \x7b\x7d".toList
/-- The elements of a slice, marshalled in order. -/
def jsonMarshalElems : List Value → Except GoString (List JSON)
  | [] => .ok []
  | x :: xs =>
    match jsonMarshal x with
    | .error msg => .error msg
    | .ok e =>
      match jsonMarshalElems xs with
      | .error msg => .error msg
      | .ok es => .ok (e :: es)
/-- The entries of a map, marshalled. -/
def jsonMarshalMembers : List (GoString × Value) → Except GoString (List (GoString × JSON))
  | [] => .ok []
  | (k, v) :: rest =>
    match jsonMarshal v with
    | .error msg => .error msg
    | .ok e =>
      match jsonMarshalMembers rest with
      | .error msg => .error msg
      | .ok es => .ok ((k, e) :: es)
end

/-- Model of `protoPartial.Unmarshal` (protojson, unknown fields discarded)
into a new `Cluster`, for a JSON object none of whose member names is a field
of the `Cluster` schema: every member is discarded and the message stays
empty. -/
def protoUnmarshalNoFields : JSON → Except GoString Cluster
  | .obj _ => .ok { text := "\x7b\x7d".toList }
  | _ => .error "proto: syntax error: unexpected token".toList

/-- The libraries of `parsePolicy` as modelled above. -/
def goLibs : Libs :=
  { url := goURL, Marshal := jsonMarshal, ProtoUnmarshal := protoUnmarshalNoFields }

/-- A stand-in for the base64 and YAML decoders that rejects every input; it
serves where the hook does not reach the decoders and where a decoding failure
is the case at hand. -/
def rejectingBlockLibs : BlockLibs :=
  { Base64Decode := fun _ => .error "illegal base64 data".toList,
    YamlUnmarshal := fun _ => .error "yaml: unmarshal errors".toList }

/-- The two reserved keys under the names the specification gives them. -/
def specKeys : Keys := { toKey := "destination".toList, envoyOptsKey := "options".toList }

/-! ## Concrete inputs used below -/

/-- The Go value `map[string]interface{}{"a": map[interface{}]interface{}{1: "x"}}`. -/
def valueNestedIntKey : Value :=
  .mapSI [("a".toList, .mapII [(.int 1, .scalar (.str "x".toList))])]

/-- The Go value
`map[interface{}]interface{}{"a": []interface{}{map[interface{}]interface{}{"b": "x"}}, "n": 1}`. -/
def valueStringKeys : Value :=
  .mapII [(.str "a".toList, .slice [.mapII [(.str "b".toList, .scalar (.str "x".toList))]]),
          (.str "n".toList, .scalar (.int 1))]


/-- The document `{"a":["1"],"b":"c"}`. -/
def docNested : JSON :=
  .obj [("a".toList, .arr [.str "1".toList]), ("b".toList, .str "c".toList)]

/-- The URL `//host`: a host and no scheme. -/
def urlNoScheme : URL :=
  { Scheme := [], Opaq := [], User := none, Host := "host".toList, Path := [],
    ForceQuery := false, RawQuery := [], Fragment := [] }

/-- The URL `https://` followed by the given host. -/
def urlHttps (host : GoString) : URL :=
  { Scheme := "https".toList, Opaq := [], User := none, Host := host, Path := [],
    ForceQuery := false, RawQuery := [], Fragment := [] }

/-- The group parsed from `["https://a,1", "https://b,2"]`. -/
def groupWeighted : List WeightedURL :=
  [{ URL := urlHttps "a".toList, LbWeight := 1 }, { URL := urlHttps "b".toList, LbWeight := 2 }]

/-- The members parsed from `["https://a,1", "https://b"]`. -/
def groupMixed : List WeightedURL :=
  [{ URL := urlHttps "a".toList, LbWeight := 1 }, { URL := urlHttps "b".toList, LbWeight := 0 }]

/-- The document `[1000000]`. -/
def docMillion : JSON := .arr [.num (Float64.ofNat 1000000)]

/-- The document `["x", true, 5]`. -/
def docScalars : JSON := .arr [.str "x".toList, .bool true, .num (Float64.ofNat 5)]

/-- The raw policy record `{"destination": ["https://a,1","https://b,2"], "x": 1}`. -/
def srcPolicy : List (GoString × Value) :=
  [("destination".toList,
      .slice [.scalar (.str "https://a,1".toList), .scalar (.str "https://b,2".toList)]),
   ("x".toList, .scalar (.int 1))]

/-- The raw policy record `{"options": "x", "y": 2}`, which already holds the
derived options key. -/
def srcWithOptions : List (GoString × Value) :=
  [("options".toList, .scalar (.str "x".toList)), ("y".toList, .scalar (.int 2))]

/-- The Go value `map[interface{}]interface{}{1: "x"}`, with a non-string key. -/
def valueIntKey : Value := .mapII [(.int 1, .scalar (.str "x".toList))]

theorem numeral_fold_ge (cs : List Char) (n : Nat) :
    n ≤ cs.foldl (fun n c => 10 * n + (c.toNat - 48)) n := by
  induction cs generalizing n with
  | nil => simp
  | cons c cs ih =>
    simp only [List.foldl_cons]
    exact le_trans (by omega) (ih _)

theorem digitVal_of_digit (c : Char) (h : isDigitChar c = true) :
    digitVal c = some (c.toNat - 48) ∧ c.toNat - 48 < 10 := by
  simp only [isDigitChar, decide_eq_true_eq] at h
  simp only [digitVal, h, and_self, if_true, true_and]
  omega

theorem digitVal_of_not_digit (c : Char) (h : isDigitChar c = false) :
    digitVal c = none ∨ ∃ d, digitVal c = some d ∧ 10 ≤ d := by
  simp only [isDigitChar, decide_eq_false_iff_not] at h
  simp only [digitVal, h, if_false]
  by_cases hl : 97 ≤ lower c.toNat ∧ lower c.toNat ≤ 122
  · right
    simp only [hl, and_self, if_true]
    exact ⟨_, rfl, by omega⟩
  · left
    simp only [hl, if_false]

theorem parseUintLoop_ok (cs : List Char) (n : Nat) (hn : n ≤ 2 ^ 32 - 1)
    (hd : cs.all isDigitChar = true)
    (hv : cs.foldl (fun n c => 10 * n + (c.toNat - 48)) n ≤ 2 ^ 32 - 1) :
    parseUintLoop 10 (maxUint64 / 10 + 1) (2 ^ 32 - 1) cs n =
      .ok (cs.foldl (fun n c => 10 * n + (c.toNat - 48)) n) := by
  induction cs generalizing n with
  | nil => simp [parseUintLoop]
  | cons c cs ih =>
    simp only [List.all_cons, Bool.and_eq_true] at hd
    obtain ⟨hc, hcs⟩ := hd
    obtain ⟨hdv, hlt⟩ := digitVal_of_digit c hc
    simp only [List.foldl_cons] at hv ⊢
    have hge := numeral_fold_ge cs (10 * n + (c.toNat - 48))
    have hn1 : 10 * n + (c.toNat - 48) ≤ 2 ^ 32 - 1 := le_trans hge hv
    have e0 : n * 10 % 2 ^ 64 = n * 10 := Nat.mod_eq_of_lt (by omega)
    have e1 : (n * 10 + (c.toNat - 48)) % 2 ^ 64 = 10 * n + (c.toNat - 48) := by
      rw [Nat.mod_eq_of_lt (by omega)]; omega
    have hcut : ¬ n ≥ maxUint64 / 10 + 1 := by
      simp only [maxUint64]; omega
    simp only [parseUintLoop, hdv, e0, e1, hcut, if_false]
    rw [if_neg (by omega), if_neg (by omega)]
    exact ih _ hn1 hcs hv

theorem parseUintLoop_error (cs : List Char) (n : Nat) (hn : n ≤ 2 ^ 32 - 1)
    (h : ¬ (cs.all isDigitChar = true ∧
      cs.foldl (fun n c => 10 * n + (c.toNat - 48)) n ≤ 2 ^ 32 - 1)) :
    ∃ kind, parseUintLoop 10 (maxUint64 / 10 + 1) (2 ^ 32 - 1) cs n = .error kind := by
  induction cs generalizing n with
  | nil => exact absurd ⟨by simp, by simpa using hn⟩ h
  | cons c cs ih =>
    cases hc : isDigitChar c with
    | false =>
      rcases digitVal_of_not_digit c hc with h0 | ⟨d, h0, hd⟩
      · simp only [parseUintLoop, h0]
        exact ⟨_, rfl⟩
      · simp only [parseUintLoop, h0, ge_iff_le, hd, if_true]
        exact ⟨_, rfl⟩
    | true =>
      obtain ⟨hdv, hlt⟩ := digitVal_of_digit c hc
      have e0 : n * 10 % 2 ^ 64 = n * 10 := Nat.mod_eq_of_lt (by omega)
      have e1 : (n * 10 + (c.toNat - 48)) % 2 ^ 64 = 10 * n + (c.toNat - 48) := by
        rw [Nat.mod_eq_of_lt (by omega)]; omega
      have hcut : ¬ n ≥ maxUint64 / 10 + 1 := by
        simp only [maxUint64]; omega
      simp only [parseUintLoop, hdv, e0, e1, hcut, if_false]
      rw [if_neg (by omega)]
      by_cases hbig : 10 * n + (c.toNat - 48) > 2 ^ 32 - 1
      · exact ⟨_, by rw [if_pos (Or.inr hbig)]⟩
      · rw [if_neg (by omega)]
        apply ih _ (by omega)
        intro ⟨h1, h2⟩
        exact h ⟨by simp [hc, h1], by simpa using h2⟩

/-- On a numeral whose value fits 32 bits `ParseUint` returns that value. -/
theorem ParseUint_ok (s : GoString) (hs : isNumeral s = true)
    (hv : numeralValue s ≤ 2 ^ 32 - 1) : ParseUint s 10 32 = .ok (numeralValue s) := by
  simp only [isNumeral, Bool.and_eq_true, Bool.not_eq_true', List.isEmpty_eq_false] at hs
  have hne : s ≠ [] := by
    intro h0; rw [h0] at hs; simp at hs
  simp only [ParseUint, hne, if_false]
  rw [parseUintLoop_ok s 0 (by omega) hs.2 hv]
  rfl

/-- On any other text `ParseUint` fails. -/
theorem ParseUint_error (s : GoString)
    (h : ¬ (isNumeral s = true ∧ numeralValue s ≤ 2 ^ 32 - 1)) :
    ∃ err, ParseUint s 10 32 = .error err := by
  by_cases hne : s = []
  · simp only [ParseUint, hne, if_true]
    exact ⟨_, rfl⟩
  · simp only [ParseUint, hne, if_false]
    obtain ⟨kind, hk⟩ := parseUintLoop_error s 0 (by omega) (by
      intro ⟨h1, h2⟩
      apply h
      refine ⟨?_, h2⟩
      simp only [isNumeral, Bool.and_eq_true, Bool.not_eq_true', h1, and_true]
      cases s with
      | nil => exact absurd rfl hne
      | cons a t => rfl)
    exact ⟨_, by rw [hk]⟩

/-! ### `weightedString` -/

theorem IndexRune_of_not_mem (s : GoString) (r : Char) (h : r ∉ s) : IndexRune s r = none := by
  induction s with
  | nil => rfl
  | cons c cs ih =>
    simp only [List.mem_cons, not_or] at h
    simp only [IndexRune, Ne.symm h.1, if_false, ih h.2, Option.map_none']

theorem IndexRune_append (pre post : GoString) (r : Char) (h : r ∉ pre) :
    IndexRune (pre ++ r :: post) r = some pre.length := by
  induction pre with
  | nil => simp [IndexRune]
  | cons c cs ih =>
    simp only [List.mem_cons, not_or] at h
    have e : (c :: cs) ++ r :: post = c :: (cs ++ r :: post) := rfl
    rw [e]
    simp only [IndexRune, Ne.symm h.1, if_false, ih h.2, Option.map_some', List.length_cons]

theorem take_length_append (pre post : GoString) : (pre ++ post).take pre.length = pre := by
  induction pre with
  | nil => simp
  | cons c cs ih => simp [ih]

theorem drop_length_succ_append (pre post : GoString) (r : Char) :
    (pre ++ r :: post).drop (pre.length + 1) = post := by
  induction pre with
  | nil => simp
  | cons c cs ih => simp

/-- The text splits at its first comma. -/
theorem split_at_first_comma (s : GoString) (h : ',' ∈ s) :
    s = beforeFirstComma s ++ ',' :: afterFirstComma s ∧ ',' ∉ beforeFirstComma s := by
  induction s with
  | nil => simp at h
  | cons c cs ih =>
    by_cases hc : c = ','
    · subst hc
      simp [beforeFirstComma, afterFirstComma, List.takeWhile, List.dropWhile]
    · have hmem : ',' ∈ cs := by
        rcases List.mem_cons.mp h with h1 | h1
        · exact absurd h1.symm hc
        · exact h1
      obtain ⟨h1, h2⟩ := ih hmem
      have hb : (c != ',') = true := by simpa using hc
      simp only [beforeFirstComma, afterFirstComma, List.takeWhile, List.dropWhile, hb,
        List.cons_append, List.mem_cons, not_or] at h1 h2 ⊢
      exact ⟨by rw [← h1], Ne.symm hc, h2⟩

/-- What `weightedString` computes on a text with a comma: it splits at the
FIRST comma and hands everything after it to `ParseUint`. -/
theorem weightedString_append (pre post : GoString) (hpre : ',' ∉ pre) :
    weightedString (pre ++ ',' :: post) =
      match ParseUint post 10 32 with
      | .error err => .error err
      | .ok w => if w = 0 then .error .errZeroWeight else .ok (pre, w % 2 ^ 32) := by
  simp only [weightedString, IndexRune_append pre post ',' hpre, take_length_append,
    drop_length_succ_append]

theorem weightedString_valid (pre post : GoString) (hpre : ',' ∉ pre)
    (hw : validWeight post = true) :
    weightedString (pre ++ ',' :: post) = .ok (pre, numeralValue post) := by
  simp only [validWeight, Bool.and_eq_true, decide_eq_true_eq] at hw
  obtain ⟨hnum, h1, h2⟩ := hw
  rw [weightedString_append pre post hpre, ParseUint_ok post hnum h2]
  have h0 : numeralValue post ≠ 0 := by omega
  simp only [h0, if_false]
  rw [Nat.mod_eq_of_lt (by omega)]

theorem weightedString_invalid (pre post : GoString) (hpre : ',' ∉ pre)
    (hw : validWeight post = false) :
    ∃ err, weightedString (pre ++ ',' :: post) = .error err := by
  rw [weightedString_append pre post hpre]
  by_cases hp : isNumeral post = true ∧ numeralValue post ≤ 2 ^ 32 - 1
  · rw [ParseUint_ok post hp.1 hp.2]
    have h0 : numeralValue post = 0 := by
      by_contra hne
      have : validWeight post = true := by
        simp only [validWeight, Bool.and_eq_true, decide_eq_true_eq]
        exact ⟨hp.1, by omega, hp.2⟩
      rw [hw] at this
      exact Bool.false_ne_true this
    simp only [h0, if_true]
    exact ⟨_, rfl⟩
  · obtain ⟨err, he⟩ := ParseUint_error post hp
    rw [he]
    exact ⟨_, rfl⟩

theorem weightedString_no_comma (s : GoString) (h : ',' ∉ s) : weightedString s = .ok (s, 0) := by
  simp only [weightedString, IndexRune_of_not_mem s ',' h]

theorem not_numeral_of_comma (post : GoString) (h : ',' ∈ post) : validWeight post = false := by
  have hall : post.all isDigitChar = false := by
    rw [List.all_eq_false]
    exact ⟨',', h, by decide⟩
  simp [validWeight, isNumeral, hall]

/-! ### The decimal text of a number -/

theorem digitChar_spec (k : Nat) (hk : k < 10) :
    isDigitChar (Nat.digitChar k) = true ∧ (Nat.digitChar k).toNat - 48 = k := by
  interval_cases k <;> exact ⟨by decide, by decide⟩

theorem toDigitsCore_spec (fuel : Nat) : ∀ (n : Nat) (ds : List Char), n < fuel →
    ∃ pre : List Char, Nat.toDigitsCore 10 fuel n ds = pre ++ ds ∧ pre ≠ [] ∧
      pre.all isDigitChar = true ∧
      ∀ m, pre.foldl (fun n c => 10 * n + (c.toNat - 48)) m = m * 10 ^ pre.length + n := by
  induction fuel with
  | zero => intro n ds h; omega
  | succ fuel ih =>
    intro n ds hn
    obtain ⟨hd1, hd2⟩ := digitChar_spec (n % 10) (Nat.mod_lt _ (by decide))
    by_cases h0 : n / 10 = 0
    · refine ⟨[Nat.digitChar (n % 10)], ?_, by simp, by simp [hd1], ?_⟩
      · simp only [Nat.toDigitsCore, h0, if_true, List.singleton_append]
      · intro m
        simp only [List.foldl_cons, List.foldl_nil, hd2, List.length_singleton, pow_one]
        omega
    · obtain ⟨pre, hp1, _, hp3, hp4⟩ :=
        ih (n / 10) (Nat.digitChar (n % 10) :: ds) (by omega)
      refine ⟨pre ++ [Nat.digitChar (n % 10)], ?_, by simp, ?_, ?_⟩
      · simp only [Nat.toDigitsCore, h0, if_false, hp1, List.append_assoc, List.singleton_append]
      · simp [hp3, hd1]
      · intro m
        simp only [List.foldl_append, List.foldl_cons, List.foldl_nil, hp4, hd2,
          List.length_append, List.length_singleton, pow_succ]
        have := Nat.div_add_mod n 10
        nlinarith [Nat.div_add_mod n 10]

/-- The decimal text of `n` is a numeral with value `n`. -/
theorem decimal_spec (n : Nat) : isNumeral (decimal n) = true ∧ numeralValue (decimal n) = n := by
  obtain ⟨pre, h1, h2, h3, h4⟩ := toDigitsCore_spec (n + 1) n [] (Nat.lt_succ_self n)
  simp only [List.append_nil] at h1
  have hd : decimal n = pre := h1
  rw [hd]
  refine ⟨?_, ?_⟩
  · cases pre with
    | nil => exact absurd rfl h2
    | cons a t => simpa [isNumeral] using h3
  · have := h4 0
    simpa [numeralValue] using this

/-! ### Claims on `StringSlice.UnmarshalJSON` -/

/-- C1 (defect of the code). On the well-formed document `{"a":["1"],"b":"c"}`
the state machine of `UnmarshalJSON` returns `["1","b"]`: after the container
value `["1"]` closes, the object frame still expects a value, so the key `"b"`
is emitted and the value `"c"` is taken for a key and dropped.  The recursive
flattening rule gives `["1","c"]`. -/
theorem UnmarshalJSON_nested_value_then_member :
    UnmarshalJSON docNested.tokens = some ["1".toList, "b".toList] ∧
    docNested.flatten = ["1".toList, "c".toList] ∧
    UnmarshalJSON docNested.tokens ≠ some docNested.flatten := by
  decide

/-! ### Claims on `weightedString` and `ParseWeightedURL` -/

/-- C2 (counterexample). On `"https://a.example/x,y,5"` the text before the
last comma is `"https://a.example/x,y"` and the text after it is `"5"`, but
`weightedString` does not return that target with weight 5: it splits at the
first comma and fails on the weight text `"y,5"`. -/
theorem weightedString_last_comma_counterexample :
    beforeLastComma "https://a.example/x,y,5".toList = "https://a.example/x,y".toList ∧
    afterLastComma "https://a.example/x,y,5".toList = "5".toList ∧
    weightedString "https://a.example/x,y,5".toList ≠ .ok ("https://a.example/x,y".toList, 5) ∧
    weightedString "https://a.example/x,y,5".toList =
      .error (.numError "ParseUint".toList "y,5".toList .ErrSyntaxKind) := by
  decide

/-- C2 (amended). `weightedString` splits its input at the FIRST comma: for a
text `pre ++ "," ++ post` with no comma in `pre`, the target is `pre` and the
weight is parsed from the whole of `post`.  It returns `(pre, value post)` when
`post` is a numeral with value in `1 .. 2^32-1` and fails otherwise; in
particular it fails whenever `post` holds a further comma. -/
theorem weightedString_splits_at_first_comma (pre post : GoString) (hpre : ',' ∉ pre) :
    (validWeight post = true →
      weightedString (pre ++ ',' :: post) = .ok (pre, numeralValue post)) ∧
    (validWeight post = false → ∃ err, weightedString (pre ++ ',' :: post) = .error err) ∧
    (',' ∈ post → ∃ err, weightedString (pre ++ ',' :: post) = .error err) :=
  ⟨weightedString_valid pre post hpre, weightedString_invalid pre post hpre,
   fun h => weightedString_invalid pre post hpre (not_numeral_of_comma post h)⟩

/-- C2 (witness): the text `"https://a.example,5"` splits into the target
`"https://a.example"` and the weight 5. -/
theorem weightedString_splits_at_first_comma_witness :
    ',' ∉ "https://a.example".toList ∧
    weightedString ("https://a.example".toList ++ ',' :: "5".toList) =
      .ok ("https://a.example".toList, 5) :=
  ⟨by decide,
   (weightedString_splits_at_first_comma "https://a.example".toList "5".toList
      (by decide)).1 (by decide)⟩

/-- C3 (defect of the code). `ParseWeightedURL` checks the host only: the text
`"//host"` parses to a URL with host `host` and an empty scheme, and
`ParseWeightedURL` returns it successfully, although `WeightedURL.Validate`
rejects that very endpoint with the missing-scheme error (and so does
`ParseWeightedUrls`, which runs `Validate` on the endpoints it parsed). -/
theorem ParseWeightedURL_accepts_empty_scheme :
    ParseWeightedURL goURL "//host".toList = .ok { URL := urlNoScheme, LbWeight := 0 } ∧
    urlNoScheme.Scheme = [] ∧
    WeightedURL.Validate { URL := urlNoScheme, LbWeight := 0 } =
      some .errSchemeMustBeSpecified ∧
    ParseWeightedUrls goURL ["//host".toList] =
      .error (.wrapped "//host".toList .errSchemeMustBeSpecified) := by
  decide

/-- C4. `weightedString` fails exactly when the input contains a comma and the
text after the comma it splits at (the first one) is not a base-10 unsigned
numeral with value in `1 .. 2^32-1`.  It fails for an empty, a non-numeric, a
zero and a too large weight, and never fails on an input without a comma. -/
theorem weightedString_fails_iff :
    (∀ s : GoString, (∃ err, weightedString s = .error err) ↔
      (',' ∈ s ∧ validWeight (afterFirstComma s) = false)) ∧
    (∀ s : GoString, ',' ∉ s → weightedString s = .ok (s, 0)) ∧
    (∀ (lib : NetURL) (s : GoString) (err : Error), weightedString s = .error err →
      ParseWeightedURL lib s = .error err) ∧
    weightedString "https://a.example,0".toList = .error .errZeroWeight ∧
    weightedString "https://a.example,".toList =
      .error (.numError "ParseUint".toList [] .ErrSyntaxKind) ∧
    weightedString "https://a.example,abc".toList =
      .error (.numError "ParseUint".toList "abc".toList .ErrSyntaxKind) ∧
    weightedString "https://a.example,4294967296".toList =
      .error (.numError "ParseUint".toList "4294967296".toList .ErrRangeKind) ∧
    weightedString "https://a.example,4294967295".toList =
      .ok ("https://a.example".toList, 4294967295) := by
  refine ⟨?_, weightedString_no_comma, ?_, by decide, by decide, by decide, by decide,
    by decide⟩
  swap
  · intro lib s err h
    simp only [ParseWeightedURL, h]
  intro s
  constructor
  · rintro ⟨err, he⟩
    by_cases hc : ',' ∈ s
    · refine ⟨hc, ?_⟩
      obtain ⟨hs, hpre⟩ := split_at_first_comma s hc
      cases hv : validWeight (afterFirstComma s) with
      | false => rfl
      | true =>
        have := weightedString_valid _ _ hpre hv
        rw [← hs, he] at this
        cases this
    · rw [weightedString_no_comma s hc] at he
      cases he
  · rintro ⟨hc, hv⟩
    obtain ⟨hs, hpre⟩ := split_at_first_comma s hc
    have := weightedString_invalid _ _ hpre hv
    rwa [← hs] at this

/-- C5. A text `t` without a comma gives `(t, 0)`; followed by a comma and
the decimal text of `n`, `1 ≤ n ≤ 2^32-1`, it gives `(t, n)`.  Hence, when the
library parses `t` to a URL with a host, `ParseWeightedURL` returns that URL
with weight `n` for the weighted text and with weight 0 for `t` itself. -/
theorem weightedString_optional_weight (lib : NetURL) (t : GoString) (n : Nat)
    (ht : ',' ∉ t) (h1 : 1 ≤ n) (h2 : n ≤ 2 ^ 32 - 1) :
    weightedString t = .ok (t, 0) ∧
    weightedString (t ++ ',' :: decimal n) = .ok (t, n) ∧
    (∀ u, lib.Parse t = .ok u → u.Hostname ≠ [] →
      ParseWeightedURL lib (t ++ ',' :: decimal n) = .ok { URL := u, LbWeight := n } ∧
      ParseWeightedURL lib t = .ok { URL := u, LbWeight := 0 }) := by
  obtain ⟨hd1, hd2⟩ := decimal_spec n
  have hw : weightedString (t ++ ',' :: decimal n) = .ok (t, n) := by
    have hv : validWeight (decimal n) = true := by
      simp only [validWeight, hd1, hd2, Bool.true_and, decide_eq_true_eq]
      exact ⟨h1, h2⟩
    rw [weightedString_valid t (decimal n) ht hv, hd2]
  refine ⟨weightedString_no_comma t ht, hw, ?_⟩
  intro u hu hh
  simp only [ParseWeightedURL, hw, weightedString_no_comma t ht, hu, hh, if_false, and_self]

/-- C5 (witness): `"https://a.example,5"` has weight 5 and `"https://a.example"`
has weight 0, with the same target. -/
theorem weightedString_optional_weight_witness :
    ParseWeightedURL goURL "https://a.example,5".toList =
      .ok { URL := urlHttps "a.example".toList, LbWeight := 5 } ∧
    ParseWeightedURL goURL "https://a.example".toList =
      .ok { URL := urlHttps "a.example".toList, LbWeight := 0 } :=
  (weightedString_optional_weight goURL "https://a.example".toList 5
    (by decide) (by decide) (by decide)).2.2 (urlHttps "a.example".toList)
    (by decide) (by decide)

/-! ### `WeightedURLs.Validate` and `ParseWeightedUrls` -/

theorem WeightedURL_Validate_none (u : WeightedURL) :
    u.Validate = none ↔ u.URL.Hostname ≠ [] ∧ u.URL.Scheme ≠ [] := by
  unfold WeightedURL.Validate
  by_cases h1 : u.URL.Hostname = []
  · simp [h1]
  · by_cases h2 : u.URL.Scheme = []
    · simp [h1, h2]
    · simp [h1, h2]

theorem any_zero_iff (urls : List WeightedURL) :
    urls.any (fun u => u.LbWeight == 0) = true ↔ ∃ u ∈ urls, u.LbWeight = 0 := by
  simp [List.any_eq_true]

theorem any_nonzero_iff (urls : List WeightedURL) :
    urls.any (fun u => u.LbWeight != 0) = true ↔ ∃ u ∈ urls, u.LbWeight ≠ 0 := by
  simp [List.any_eq_true]

/-- The loop of `Validate` on valid members only computes the two flags. -/
theorem validateLoop_valid (lib : NetURL) (urls : List WeightedURL)
    (hvalid : ∀ u ∈ urls, u.Validate = none) (noWeight hasWeight : Bool) :
    validateLoop lib urls noWeight hasWeight =
      if (noWeight || urls.any (fun u => u.LbWeight == 0)) =
          (hasWeight || urls.any (fun u => u.LbWeight != 0))
      then .error .errEndpointWeightsSpec
      else if (noWeight || urls.any (fun u => u.LbWeight == 0)) then .ok false
      else .ok true := by
  induction urls generalizing noWeight hasWeight with
  | nil => simp [validateLoop]
  | cons u rest ih =>
    have hu : u.Validate = none := hvalid u (List.mem_cons_self _ _)
    have hrest : ∀ v ∈ rest, v.Validate = none :=
      fun v hv => hvalid v (List.mem_cons_of_mem _ hv)
    by_cases hz : u.LbWeight = 0
    · simp only [validateLoop, hu, hz, if_true, ih hrest, List.any_cons, beq_self_eq_true,
        bne_self_eq_false, Bool.true_or, Bool.false_or]
      cases noWeight <;> simp
    · have hb : (u.LbWeight == 0) = false := by simpa using hz
      have hb2 : (u.LbWeight != 0) = true := by simpa using hz
      simp only [validateLoop, hu, hz, if_false, ih hrest, List.any_cons, hb, hb2,
        Bool.true_or, Bool.false_or]
      cases hasWeight <;> simp

/-- A successful run of the loop of `Validate` has seen valid members only. -/
theorem validateLoop_ok_valid (lib : NetURL) (urls : List WeightedURL)
    (noWeight hasWeight b : Bool) (h : validateLoop lib urls noWeight hasWeight = .ok b) :
    ∀ u ∈ urls, u.Validate = none := by
  induction urls generalizing noWeight hasWeight with
  | nil => intro u hu; cases hu
  | cons u rest ih =>
    cases hv : u.Validate with
    | some err => simp [validateLoop, hv] at h
    | none =>
      simp only [validateLoop, hv] at h
      intro v hmem
      rcases List.mem_cons.mp hmem with rfl | hmem
      · exact hv
      · by_cases hz : u.LbWeight = 0
        · rw [if_pos hz] at h
          exact ih _ _ h v hmem
        · rw [if_neg hz] at h
          exact ih _ _ h v hmem

/-- Method `Validate` on a non-empty group of valid members. -/
theorem Validate_valid (lib : NetURL) (urls : List WeightedURL)
    (hvalid : ∀ u ∈ urls, u.Validate = none) (hne : urls ≠ []) :
    WeightedURLs.Validate lib urls =
      if urls.any (fun u => u.LbWeight == 0) = urls.any (fun u => u.LbWeight != 0)
      then .error .errEndpointWeightsSpec
      else if urls.any (fun u => u.LbWeight == 0) then .ok false
      else .ok true := by
  have hlen : ¬ urls.length = 0 := by
    intro h0; exact hne (List.length_eq_zero.mp h0)
  simp only [WeightedURLs.Validate, hlen, if_false, validateLoop_valid lib urls hvalid,
    Bool.false_or]

/-- In a non-empty group some member has weight zero or some has not. -/
theorem any_zero_or_nonzero (urls : List WeightedURL) (hne : urls ≠ []) :
    urls.any (fun u => u.LbWeight == 0) = true ∨ urls.any (fun u => u.LbWeight != 0) = true := by
  cases urls with
  | nil => exact absurd rfl hne
  | cons u rest =>
    by_cases hz : u.LbWeight = 0
    · left; simp [hz]
    · right; simp [hz]

/-- What a successful `Validate` tells about the group. -/
theorem Validate_ok (lib : NetURL) (urls : List WeightedURL) (b : Bool)
    (h : WeightedURLs.Validate lib urls = .ok b) :
    urls ≠ [] ∧ (∀ u ∈ urls, u.Validate = none) ∧
    (b = false → ∀ u ∈ urls, u.LbWeight = 0) ∧ (b = true → ∀ u ∈ urls, 0 < u.LbWeight) := by
  have hne : urls ≠ [] := by
    intro h0; subst h0; simp [WeightedURLs.Validate] at h
  have hlen : ¬ urls.length = 0 := by
    intro h0; exact hne (List.length_eq_zero.mp h0)
  have hvalid : ∀ u ∈ urls, u.Validate = none := by
    simp only [WeightedURLs.Validate, hlen, if_false] at h
    exact validateLoop_ok_valid lib urls _ _ b h
  rw [Validate_valid lib urls hvalid hne] at h
  refine ⟨hne, hvalid, ?_, ?_⟩
  · intro hb u hu
    subst hb
    cases hA : urls.any (fun u => u.LbWeight == 0) <;>
      cases hB : urls.any (fun u => u.LbWeight != 0) <;> simp [hA, hB] at h
    by_contra hz
    have : urls.any (fun u => u.LbWeight != 0) = true :=
      (any_nonzero_iff urls).mpr ⟨u, hu, hz⟩
    rw [hB] at this
    exact Bool.false_ne_true this
  · intro hb u hu
    subst hb
    cases hA : urls.any (fun u => u.LbWeight == 0) <;>
      cases hB : urls.any (fun u => u.LbWeight != 0) <;> simp [hA, hB] at h
    by_contra hz
    have : urls.any (fun u => u.LbWeight == 0) = true :=
      (any_zero_iff urls).mpr ⟨u, hu, by omega⟩
    rw [hA] at this
    exact Bool.false_ne_true this

/-- The loop of `ParseWeightedUrls` succeeds exactly when every text parses;
it appends the endpoints in input order. -/
theorem parseLoop_ok_iff (lib : NetURL) (texts : List GoString) (out g : List WeightedURL) :
    parseLoop lib texts out = .ok g ↔
      ∃ us, g = out ++ us ∧
        List.Forall₂ (fun t u => ParseWeightedURL lib t = .ok u) texts us := by
  induction texts generalizing out with
  | nil =>
    simp only [parseLoop, Except.ok.injEq]
    constructor
    · intro h; exact ⟨[], by simp [h], List.Forall₂.nil⟩
    · rintro ⟨us, h1, h2⟩
      cases h2
      simp [h1]
  | cons t rest ih =>
    cases hp : ParseWeightedURL lib t with
    | error err =>
      simp only [parseLoop, hp]
      constructor
      · intro h; cases h
      · rintro ⟨us, _, h2⟩
        cases h2 with
        | cons h3 _ => rw [hp] at h3; cases h3
    | ok u =>
      simp only [parseLoop, hp, ih]
      constructor
      · rintro ⟨us, h1, h2⟩
        exact ⟨u :: us, by simp [h1], List.Forall₂.cons hp h2⟩
      · rintro ⟨us, h1, h2⟩
        cases h2 with
        | cons h3 h4 =>
          rw [hp] at h3
          cases h3
          exact ⟨_, by simp [h1], h4⟩

/-! ### Claims on endpoint groups -/

/-- C6. For a group whose members each have a non-empty host and scheme,
`Validate` fails with the empty-group error iff the group is empty, fails with
the inconsistent-weights error iff the group is non-empty and has both a
member of weight 0 and a member of non-zero weight, and otherwise succeeds
with `HasWeight` true iff every weight is positive (false iff every weight is
0).  `ParseWeightedUrls`, on texts that parse to the members of the group,
fails with the same error or returns the group. -/
theorem Validate_classification (lib : NetURL) (urls : List WeightedURL)
    (hvalid : ∀ u ∈ urls, u.URL.Hostname ≠ [] ∧ u.URL.Scheme ≠ []) :
    (WeightedURLs.Validate lib urls = .error .errEmptyUrls ↔ urls = []) ∧
    (WeightedURLs.Validate lib urls = .error .errEndpointWeightsSpec ↔
      urls ≠ [] ∧ (∃ u ∈ urls, u.LbWeight = 0) ∧ (∃ u ∈ urls, u.LbWeight ≠ 0)) ∧
    (urls ≠ [] → ¬ ((∃ u ∈ urls, u.LbWeight = 0) ∧ (∃ u ∈ urls, u.LbWeight ≠ 0)) →
      ∃ hasWeight, WeightedURLs.Validate lib urls = .ok hasWeight ∧
        (hasWeight = true ↔ ∀ u ∈ urls, 0 < u.LbWeight) ∧
        (hasWeight = false ↔ ∀ u ∈ urls, u.LbWeight = 0)) ∧
    (∀ texts, List.Forall₂ (fun t u => ParseWeightedURL lib t = .ok u) texts urls →
      ParseWeightedUrls lib texts =
        (WeightedURLs.Validate lib urls).map (fun _ => urls)) := by
  have hparse : ∀ texts, List.Forall₂ (fun t u => ParseWeightedURL lib t = .ok u) texts urls →
      ParseWeightedUrls lib texts =
        (WeightedURLs.Validate lib urls).map (fun _ => urls) := by
    intro texts hf
    have hl : parseLoop lib texts [] = .ok urls :=
      (parseLoop_ok_iff lib texts [] urls).mpr ⟨urls, by simp, hf⟩
    simp only [ParseWeightedUrls, hl]
    cases WeightedURLs.Validate lib urls <;> rfl
  refine ⟨?_, ?_, ?_, hparse⟩
  · constructor
    · intro h
      by_contra hne
      have hv : ∀ u ∈ urls, u.Validate = none :=
        fun u hu => (WeightedURL_Validate_none u).mpr (hvalid u hu)
      rw [Validate_valid lib urls hv hne] at h
      split at h
      · cases h
      · split at h <;> cases h
    · intro h
      subst h
      rfl
  · by_cases hne : urls = []
    · subst hne
      simp [WeightedURLs.Validate]
    · have hv : ∀ u ∈ urls, u.Validate = none :=
        fun u hu => (WeightedURL_Validate_none u).mpr (hvalid u hu)
      have hor := any_zero_or_nonzero urls hne
      rw [Validate_valid lib urls hv hne, ← any_zero_iff, ← any_nonzero_iff]
      cases hA : urls.any (fun u => u.LbWeight == 0) <;>
        cases hB : urls.any (fun u => u.LbWeight != 0) <;>
        simp [hA, hB, hne] at hor ⊢
  · intro hne hmix
    have hv : ∀ u ∈ urls, u.Validate = none :=
      fun u hu => (WeightedURL_Validate_none u).mpr (hvalid u hu)
    have hZ := any_zero_iff urls
    have hN := any_nonzero_iff urls
    have hor := any_zero_or_nonzero urls hne
    rw [Validate_valid lib urls hv hne]
    cases hA : urls.any (fun u => u.LbWeight == 0) <;>
      cases hB : urls.any (fun u => u.LbWeight != 0) <;>
      rw [hA] at hZ hor <;> rw [hB] at hN hor
    · simp at hor
    · have hnz : ¬ ∃ u ∈ urls, u.LbWeight = 0 := fun h => Bool.false_ne_true (hZ.mpr h)
      have hpos : ∀ u ∈ urls, 0 < u.LbWeight := by
        intro u hu
        by_contra hc
        exact hnz ⟨u, hu, by omega⟩
      have hnall : ¬ ∀ u ∈ urls, u.LbWeight = 0 := by
        obtain ⟨u, hu, hu0⟩ := hN.mp rfl
        exact fun h => hu0 (h u hu)
      refine ⟨true, by simp, ⟨fun _ => hpos, fun _ => rfl⟩, ⟨fun h => ?_, fun h => ?_⟩⟩
      · cases h
      · exact absurd h hnall
    · have hnn : ¬ ∃ u ∈ urls, u.LbWeight ≠ 0 := fun h => Bool.false_ne_true (hN.mpr h)
      have hzero : ∀ u ∈ urls, u.LbWeight = 0 := by
        intro u hu
        by_contra hc
        exact hnn ⟨u, hu, hc⟩
      have hnall : ¬ ∀ u ∈ urls, 0 < u.LbWeight := by
        obtain ⟨u, hu, hu0⟩ := hZ.mp rfl
        intro h
        have := h u hu
        omega
      refine ⟨false, by simp, ⟨fun h => ?_, fun h => ?_⟩, ⟨fun _ => hzero, fun _ => rfl⟩⟩
      · cases h
      · exact absurd h hnall
    · exact absurd ⟨hZ.mp rfl, hN.mp rfl⟩ hmix

/-- C6 (witness): `["https://a,1","https://b,2"]` is accepted with `HasWeight`
true, and `["https://a,1","https://b"]` is rejected with the
inconsistent-weights error. -/
theorem Validate_classification_witness :
    (∀ u ∈ groupWeighted, u.URL.Hostname ≠ [] ∧ u.URL.Scheme ≠ []) ∧
    WeightedURLs.Validate goURL groupWeighted = .ok true ∧
    ParseWeightedUrls goURL ["https://a,1".toList, "https://b,2".toList] = .ok groupWeighted ∧
    ParseWeightedUrls goURL ["https://a,1".toList, "https://b".toList] =
      .error .errEndpointWeightsSpec :=
  ⟨by decide, by decide,
   (Validate_classification goURL groupWeighted (by decide)).2.2.2 _
     (List.Forall₂.cons (by decide) (List.Forall₂.cons (by decide) List.Forall₂.nil)),
   (Validate_classification goURL groupMixed (by decide)).2.2.2 _
     (List.Forall₂.cons (by decide) (List.Forall₂.cons (by decide) List.Forall₂.nil))⟩

/-- C7. Whenever `ParseWeightedUrls` succeeds, the returned group is
non-empty, has one endpoint per input text in input order, each the result of
`ParseWeightedURL` on that text, every endpoint has a non-empty host and a
non-empty scheme, and either all weights are 0 or all are positive. -/
theorem ParseWeightedUrls_invariant (lib : NetURL) (texts : List GoString)
    (g : List WeightedURL) (h : ParseWeightedUrls lib texts = .ok g) :
    g ≠ [] ∧ g.length = texts.length ∧
    List.Forall₂ (fun t u => ParseWeightedURL lib t = .ok u) texts g ∧
    (∀ u ∈ g, u.URL.Hostname ≠ [] ∧ u.URL.Scheme ≠ []) ∧
    ((∀ u ∈ g, u.LbWeight = 0) ∨ (∀ u ∈ g, 0 < u.LbWeight)) := by
  unfold ParseWeightedUrls at h
  cases hl : parseLoop lib texts [] with
  | error err => rw [hl] at h; cases h
  | ok out =>
    rw [hl] at h
    cases hv : WeightedURLs.Validate lib out with
    | error err => simp only [hv] at h; cases h
    | ok b =>
      simp only [hv] at h
      cases h
      obtain ⟨us, h1, h2⟩ := (parseLoop_ok_iff lib texts [] g).mp hl
      simp only [List.nil_append] at h1
      rw [← h1] at h2
      obtain ⟨hne, hvalid, hf, ht⟩ := Validate_ok lib g b hv
      refine ⟨hne, h2.length_eq.symm, h2,
        fun u hu => (WeightedURL_Validate_none u).mp (hvalid u hu), ?_⟩
      cases b with
      | false => exact Or.inl (hf rfl)
      | true => exact Or.inr (ht rfl)

/-- C7 (witness): the group parsed from `["https://a,1","https://b,2"]`. -/
theorem ParseWeightedUrls_invariant_witness :
    ParseWeightedUrls goURL ["https://a,1".toList, "https://b,2".toList] = .ok groupWeighted ∧
    groupWeighted ≠ [] ∧ groupWeighted.length = 2 ∧
    (∀ u ∈ groupWeighted, u.URL.Hostname ≠ [] ∧ u.URL.Scheme ≠ []) ∧
    ((∀ u ∈ groupWeighted, u.LbWeight = 0) ∨ (∀ u ∈ groupWeighted, 0 < u.LbWeight)) :=
  have h := ParseWeightedUrls_invariant goURL
    ["https://a,1".toList, "https://b,2".toList] groupWeighted (by decide)
  ⟨by decide, h.1, h.2.1, h.2.2.2.1, h.2.2.2.2⟩

/-- C8. `Flatten` fails exactly when `Validate` fails, with the same error.
When `Validate` succeeds, `Flatten` returns one target per endpoint in group
order, the string form of its URL; the weights are nil (or empty) iff every
weight of the group is 0, and otherwise they are the weights of the endpoints
in group order. -/
theorem Flatten_spec (lib : NetURL) (urls : List WeightedURL) :
    (∀ err, WeightedURLs.Validate lib urls = .error err ↔
      WeightedURLs.Flatten lib urls = .error err) ∧
    (∀ hasWeight, WeightedURLs.Validate lib urls = .ok hasWeight →
      ∃ weights, WeightedURLs.Flatten lib urls =
          .ok (urls.map (fun u => lib.String u.URL), weights) ∧
        ((weights = none ∨ weights = some []) ↔ ∀ u ∈ urls, u.LbWeight = 0) ∧
        ((¬ ∀ u ∈ urls, u.LbWeight = 0) →
          weights = some (urls.map (fun u => u.LbWeight)))) := by
  cases hV : WeightedURLs.Validate lib urls with
  | error e =>
    refine ⟨fun err => ?_, fun b hb => by cases hb⟩
    simp only [WeightedURLs.Flatten, hV]
    constructor <;> intro h <;> cases h <;> rfl
  | ok b =>
    obtain ⟨hne, _, hf, ht⟩ := Validate_ok lib urls b hV
    refine ⟨fun err => ?_, fun b1 hb => ?_⟩
    · simp only [WeightedURLs.Flatten, hV]
      cases b <;> simp
    · cases hb
      cases b with
      | false =>
        refine ⟨none, by simp [WeightedURLs.Flatten, hV],
          ⟨fun _ => hf rfl, fun _ => Or.inl rfl⟩, ?_⟩
        intro hcon
        exact absurd (hf rfl) hcon
      | true =>
        have hnall : ¬ ∀ u ∈ urls, u.LbWeight = 0 := by
          cases urls with
          | nil => exact absurd rfl hne
          | cons u rest =>
            intro h
            have h1 := h u (List.mem_cons_self _ _)
            have h2 := ht rfl u (List.mem_cons_self _ _)
            omega
        refine ⟨some (urls.map (fun u => u.LbWeight)),
          by simp [WeightedURLs.Flatten, hV], ?_, fun _ => rfl⟩
        simp [hnall, hne]

/-- C8 (witness): the weighted group `https://a` (1), `https://b` (2)
flattens to its two targets and the weights `[1, 2]`. -/
theorem Flatten_spec_witness :
    WeightedURLs.Flatten goURL groupWeighted =
      .ok (["https://a".toList, "https://b".toList], some [1, 2]) := by
  obtain ⟨weights, h1, _, h3⟩ := (Flatten_spec goURL groupWeighted).2 true (by decide)
  rw [h1, h3 (by decide)]
  decide

/-! ### `serializable` -/

theorem mapSet_of_not_mem {β : Type} (m : List (GoString × β)) (k : GoString) (v : β)
    (h : k ∉ m.map Prod.fst) : mapSet m k v = m ++ [(k, v)] := by
  induction m with
  | nil => rfl
  | cons e rest ih =>
    obtain ⟨k1, v1⟩ := e
    simp only [List.map_cons, List.mem_cons, not_or] at h
    simp only [mapSet, Ne.symm h.1, if_false, ih h.2, List.cons_append]

mutual
/-- On a well-formed value with string keys only, `serializable` succeeds and
keeps the shape. -/
theorem serializable_shape : ∀ (v : Value), v.wf = true → v.hasNonStringKey = false →
    ∃ out, serializable v = .ok out ∧ out.shape = v.shape
  | .scalar s, _, _ => ⟨_, rfl, rfl⟩
  | .strSlice xs, _, _ => ⟨_, rfl, rfl⟩
  | .mapSI kvs, _, _ => ⟨_, rfl, rfl⟩
  | .slice xs, hwf, hk => by
    simp only [Value.wf] at hwf
    simp only [Value.hasNonStringKey] at hk
    obtain ⟨out, h1, h2⟩ := serializableElems_shape xs [] hwf hk
    refine ⟨.slice out, ?_, ?_⟩
    · simp only [serializable, h1, List.nil_append]
    · simp only [Value.shape, h2]
  | .mapII kvs, hwf, hk => by
    simp only [Value.wf, Bool.and_eq_true, decide_eq_true_eq] at hwf
    simp only [Value.hasNonStringKey] at hk
    obtain ⟨out, h1, h2⟩ := serializableEntries_shape kvs [] hwf.2 hk hwf.1
      (fun _ _ => by simp)
    refine ⟨.mapSI out, ?_, ?_⟩
    · simp only [serializable, h1, List.nil_append]
    · simp only [Value.shape, h2]
/-- The slice loop appends the canonical forms of the elements, in order. -/
theorem serializableElems_shape : ∀ (xs acc : List Value), Value.wfElems xs = true →
    Value.hasNonStringKeyElems xs = false →
    ∃ out, serializableElems xs acc = .ok (acc ++ out) ∧
      Value.shapeElems out = Value.shapeElems xs
  | [], acc, _, _ => ⟨[], by simp [serializableElems], rfl⟩
  | x :: xs, acc, hwf, hk => by
    simp only [Value.wfElems, Bool.and_eq_true] at hwf
    simp only [Value.hasNonStringKeyElems, Bool.or_eq_false_iff] at hk
    obtain ⟨val, h1, h2⟩ := serializable_shape x hwf.1 hk.1
    obtain ⟨out, h3, h4⟩ := serializableElems_shape xs (acc ++ [val]) hwf.2 hk.2
    refine ⟨val :: out, ?_, ?_⟩
    · simp only [serializableElems, h1, h3, List.append_assoc, List.singleton_append]
    · simp only [Value.shapeElems, h2, h4]
/-- The map loop adds one entry per entry of the input, under the same key. -/
theorem serializableEntries_shape : ∀ (kvs : List (Scalar × Value))
    (m : List (GoString × Value)), Value.wfEntries kvs = true →
    Value.hasNonStringKeyEntries kvs = false → (kvs.map Prod.fst).Nodup →
    (∀ k, Scalar.str k ∈ kvs.map Prod.fst → k ∉ m.map Prod.fst) →
    ∃ out, serializableEntries kvs m = .ok (m ++ out) ∧
      Value.shapeMembers out = Value.shapeEntries kvs
  | [], m, _, _, _, _ => ⟨[], by simp [serializableEntries], rfl⟩
  | (k, v) :: rest, m, hwf, hk, hnd, hdis => by
    simp only [Value.wfEntries, Bool.and_eq_true] at hwf
    simp only [Value.hasNonStringKeyEntries, Bool.or_eq_false_iff, Bool.not_eq_false'] at hk
    simp only [List.map_cons, List.nodup_cons] at hnd
    obtain ⟨val, h1, h2⟩ := serializable_shape v hwf.1 hk.1.2
    cases k with
    | str kstr =>
      have hnot : kstr ∉ m.map Prod.fst := hdis kstr (by simp)
      obtain ⟨out, h3, h4⟩ := serializableEntries_shape rest (m ++ [(kstr, val)]) hwf.2 hk.2
        hnd.2 (by
          intro k1 hk1
          simp only [List.map_append, List.map_cons, List.map_nil, List.mem_append,
            List.mem_singleton, not_or]
          refine ⟨hdis k1 (by simp [hk1]), ?_⟩
          intro heq
          subst heq
          exact hnd.1 hk1)
      refine ⟨(kstr, val) :: out, ?_, ?_⟩
      · simp only [serializableEntries, h1, mapSet_of_not_mem m kstr val hnot, h3,
          List.append_assoc, List.singleton_append]
      · simp only [Value.shapeMembers, Value.shapeEntries, h2, h4]
    | nil => simp [Scalar.isStr] at hk
    | bool b => simp [Scalar.isStr] at hk
    | int i => simp [Scalar.isStr] at hk
end

theorem stringKeyedElems_append (acc : List Value) (v : Value) :
    Value.stringKeyedElems (acc ++ [v]) = (Value.stringKeyedElems acc && v.stringKeyed) := by
  induction acc with
  | nil => simp [Value.stringKeyedElems]
  | cons a rest ih =>
    have e : (a :: rest) ++ [v] = a :: (rest ++ [v]) := rfl
    rw [e]
    simp only [Value.stringKeyedElems, ih, Bool.and_assoc]

theorem stringKeyedMembers_mapSet (m : List (GoString × Value)) (k : GoString) (v : Value)
    (hm : Value.stringKeyedMembers m = true) (hv : v.stringKeyed = true) :
    Value.stringKeyedMembers (mapSet m k v) = true := by
  induction m with
  | nil => simp [mapSet, Value.stringKeyedMembers, hv]
  | cons e rest ih =>
    obtain ⟨k1, v1⟩ := e
    simp only [Value.stringKeyedMembers, Bool.and_eq_true] at hm
    by_cases hk : k1 = k
    · simp only [mapSet, hk, if_true, Value.stringKeyedMembers, hv, hm.2, Bool.and_self]
    · simp only [mapSet, hk, if_false, Value.stringKeyedMembers, hm.1, ih hm.2, Bool.and_self]

mutual
/-- On a decoded value (no `map[string]interface{}` inside), `serializable`
fails with the keys-must-be-strings error when the value holds a non-string
key at some depth, and otherwise returns a value built from string-keyed maps,
lists and scalars only. -/
theorem serializable_decoded : ∀ (v : Value), v.decoded = true →
    (serializable v = .error .errKeysMustBeStrings ∧ v.hasNonStringKey = true) ∨
    (∃ out, serializable v = .ok out ∧ out.stringKeyed = true ∧ v.hasNonStringKey = false)
  | .scalar s, _ => Or.inr ⟨_, rfl, rfl, rfl⟩
  | .strSlice xs, _ => Or.inr ⟨_, rfl, rfl, rfl⟩
  | .mapSI kvs, h => by simp [Value.decoded] at h
  | .slice xs, h => by
    simp only [Value.decoded] at h
    rcases serializableElems_decoded xs [] h rfl with ⟨h1, h2⟩ | ⟨out, h1, h2, h3⟩
    · exact Or.inl ⟨by simp only [serializable, h1], by simp only [Value.hasNonStringKey, h2]⟩
    · exact Or.inr ⟨.slice out, by simp only [serializable, h1],
        by simp only [Value.stringKeyed, h2], by simp only [Value.hasNonStringKey, h3]⟩
  | .mapII kvs, h => by
    simp only [Value.decoded] at h
    rcases serializableEntries_decoded kvs [] h rfl with ⟨h1, h2⟩ | ⟨out, h1, h2, h3⟩
    · exact Or.inl ⟨by simp only [serializable, h1], by simp only [Value.hasNonStringKey, h2]⟩
    · exact Or.inr ⟨.mapSI out, by simp only [serializable, h1],
        by simp only [Value.stringKeyed, h2], by simp only [Value.hasNonStringKey, h3]⟩
/-- The slice loop on decoded elements. -/
theorem serializableElems_decoded : ∀ (xs acc : List Value), Value.decodedElems xs = true →
    Value.stringKeyedElems acc = true →
    (serializableElems xs acc = .error .errKeysMustBeStrings ∧
      Value.hasNonStringKeyElems xs = true) ∨
    (∃ out, serializableElems xs acc = .ok out ∧ Value.stringKeyedElems out = true ∧
      Value.hasNonStringKeyElems xs = false)
  | [], acc, _, hacc => Or.inr ⟨acc, rfl, hacc, rfl⟩
  | x :: xs, acc, h, hacc => by
    simp only [Value.decodedElems, Bool.and_eq_true] at h
    rcases serializable_decoded x h.1 with ⟨h1, h2⟩ | ⟨val, h1, h2, h3⟩
    · exact Or.inl ⟨by simp only [serializableElems, h1],
        by simp only [Value.hasNonStringKeyElems, h2, Bool.true_or]⟩
    · have hacc1 : Value.stringKeyedElems (acc ++ [val]) = true := by
        rw [stringKeyedElems_append, hacc, h2]; rfl
      rcases serializableElems_decoded xs (acc ++ [val]) h.2 hacc1 with
        ⟨h4, h5⟩ | ⟨out, h4, h5, h6⟩
      · exact Or.inl ⟨by simp only [serializableElems, h1, h4],
          by simp only [Value.hasNonStringKeyElems, h5, Bool.or_true]⟩
      · exact Or.inr ⟨out, by simp only [serializableElems, h1, h4], h5,
          by simp only [Value.hasNonStringKeyElems, h3, h6, Bool.or_self]⟩
/-- The map loop on decoded entries. -/
theorem serializableEntries_decoded : ∀ (kvs : List (Scalar × Value))
    (m : List (GoString × Value)), Value.decodedEntries kvs = true →
    Value.stringKeyedMembers m = true →
    (serializableEntries kvs m = .error .errKeysMustBeStrings ∧
      Value.hasNonStringKeyEntries kvs = true) ∨
    (∃ out, serializableEntries kvs m = .ok out ∧ Value.stringKeyedMembers out = true ∧
      Value.hasNonStringKeyEntries kvs = false)
  | [], m, _, hm => Or.inr ⟨m, rfl, hm, rfl⟩
  | (k, v) :: rest, m, h, hm => by
    simp only [Value.decodedEntries, Bool.and_eq_true] at h
    cases k with
    | str kstr =>
      rcases serializable_decoded v h.1 with ⟨h1, h2⟩ | ⟨val, h1, h2, h3⟩
      · exact Or.inl ⟨by simp only [serializableEntries, h1],
          by simp only [Value.hasNonStringKeyEntries, h2, Bool.true_or, Bool.or_true]⟩
      · rcases serializableEntries_decoded rest (mapSet m kstr val) h.2
          (stringKeyedMembers_mapSet m kstr val hm h2) with ⟨h4, h5⟩ | ⟨out, h4, h5, h6⟩
        · exact Or.inl ⟨by simp only [serializableEntries, h1, h4],
            by simp only [Value.hasNonStringKeyEntries, h5, Bool.or_true]⟩
        · exact Or.inr ⟨out, by simp only [serializableEntries, h1, h4], h5,
            by simp only [Value.hasNonStringKeyEntries, Scalar.isStr, h3, h6, Bool.not_true,
              Bool.or_self]⟩
    | nil => exact Or.inl ⟨rfl, rfl⟩
    | bool b => exact Or.inl ⟨rfl, rfl⟩
    | int i => exact Or.inl ⟨rfl, rfl⟩
end

/-- Function `ParseWeightedURL` never returns an endpoint with an empty host:
it fails with the missing-host error when the library returns a URL whose
hostname is empty. -/
theorem ParseWeightedURL_host (lib : NetURL) (dst : GoString) :
    (∀ e, ParseWeightedURL lib dst = .ok e → e.URL.Hostname ≠ []) ∧
    (∀ target w u, weightedString dst = .ok (target, w) → lib.Parse target = .ok u →
      u.Hostname = [] → ParseWeightedURL lib dst = .error .errHostnameMustBeSpecified) := by
  constructor
  · intro e he
    unfold ParseWeightedURL at he
    cases hw : weightedString dst with
    | error err => simp only [hw] at he; cases he
    | ok p =>
      obtain ⟨target, w⟩ := p
      simp only [hw] at he
      cases hp : lib.Parse target with
      | error err => simp only [hp] at he; cases he
      | ok u =>
        simp only [hp] at he
        by_cases hh : u.Hostname = []
        · simp only [hh, if_true] at he; cases he
        · simp only [hh, if_false] at he
          cases he
          exact hh
  · intro target w u hw hp hh
    simp only [ParseWeightedURL, hw, hp, hh, if_true]

/-! ### Claims on `serializable` -/

/-- C9 (defect of the code). The value
`map[string]interface{}{"a": map[interface{}]interface{}{1: "x"}}` contains a
map with the non-string key `1`, nested as a value inside a string-keyed map.
`serializable` does not inspect a `map[string]interface{}` (it falls in the
`default` case of the type switch) and returns the value unchanged, with no
error; the output still holds a `map[interface{}]interface{}`. -/
theorem serializable_skips_string_keyed_map :
    valueNestedIntKey.wf = true ∧
    valueNestedIntKey.hasNonStringKey = true ∧
    serializable valueNestedIntKey = .ok valueNestedIntKey ∧
    valueNestedIntKey.stringKeyed = false :=
  ⟨by decide, by decide, rfl, by decide⟩

/-- C10. For every (well-formed) value whose maps have string keys only, at
every depth, `serializable` succeeds and returns a value structurally equal to
its input: maps have the same keys with structurally equal values under each
key, lists the same length and element order, scalars are unchanged. -/
theorem serializable_round_trip (v : Value) (hwf : v.wf = true)
    (hkeys : v.hasNonStringKey = false) :
    ∃ out, serializable v = .ok out ∧ out.shape = v.shape :=
  serializable_shape v hwf hkeys

/-- C10 (witness): the value `{"a": [{"b": "x"}], "n": 1}` with
`map[interface{}]interface{}` maps becomes the same structure with
`map[string]interface{}` maps. -/
theorem serializable_round_trip_witness :
    serializable valueStringKeys =
      .ok (.mapSI [("a".toList, .slice [.mapSI [("b".toList, .scalar (.str "x".toList))]]),
                   ("n".toList, .scalar (.int 1))]) ∧
    ∃ out, serializable valueStringKeys = .ok out ∧ out.shape = valueStringKeys.shape :=
  ⟨rfl, serializable_round_trip valueStringKeys (by decide) (by decide)⟩

/-! ### The state machine of `UnmarshalJSON` -/

theorem run_append (st : DecState) (a b : List Token) :
    run st (a ++ b) = (run st a).bind (fun s => run s b) := by
  induction a generalizing st with
  | nil => rfl
  | cons tok rest ih =>
    have e : (tok :: rest) ++ b = tok :: (rest ++ b) := rfl
    rw [e]
    simp only [run]
    cases step st tok with
    | none => rfl
    | some st1 => exact ih st1

theorem setLast_of_ne_nil (s : List Nat) (v : Nat) (h : s ≠ []) :
    setLast s v = some (s.dropLast ++ [v]) := by
  simp only [setLast, h, if_false]

theorem popLast_of_ne_nil (s : List Nat) (h : s ≠ []) : popLast s = some s.dropLast := by
  simp only [popLast, h, if_false]

theorem appendToken_prefix (vals : List GoString) (tok : Token) :
    vals <+: appendToken vals tok := by
  cases tok <;> simp [appendToken]

/-- A scalar token on non-empty stacks: the stacks keep their lengths and
`vals` only grows. -/
theorem step_scalar (st : DecState) (tok : Token) (hd : ∀ c, tok ≠ .delim c)
    (hne : st.stateStack ≠ []) :
    ∃ st1, step st tok = some st1 ∧ st1.typeStack = st.typeStack ∧
      st1.stateStack.length = st.stateStack.length ∧ st.vals <+: st1.vals := by
  obtain ⟨top, htop⟩ : ∃ top, st.stateStack.getLast? = some top := by
    cases h : st.stateStack.getLast? with
    | none => exact absurd (List.getLast?_eq_none_iff.mp h) hne
    | some top => exact ⟨top, rfl⟩
  have hlen : (st.stateStack.dropLast ++ [top]).length = st.stateStack.length := by
    have : st.stateStack.length ≠ 0 := fun h => hne (List.length_eq_zero.mp h)
    simp only [List.length_append, List.length_dropLast, List.length_singleton]
    omega
  have hlen2 : ∀ v : Nat, (st.stateStack.dropLast ++ [v]).length = st.stateStack.length := by
    intro v
    simpa using hlen
  have hstep : step st tok =
      (if top = objectKey then
        (setLast st.stateStack objectValue).map (fun ss => { st with stateStack := ss })
      else if top = objectValue then
        (setLast st.stateStack objectKey).map
          (fun ss => { st with stateStack := ss, vals := appendToken st.vals tok })
      else some { st with vals := appendToken st.vals tok }) := by
    cases tok with
    | delim c => exact absurd rfl (hd c)
    | bool b => simp only [step, htop]
    | float64 f => simp only [step, htop]
    | number n => simp only [step, htop]
    | string x => simp only [step, htop]
    | null => simp only [step, htop]
  rw [hstep]
  by_cases h1 : top = objectKey
  · simp only [h1, if_true, setLast_of_ne_nil _ _ hne, Option.map_some']
    exact ⟨_, rfl, rfl, hlen2 _, List.prefix_refl _⟩
  · by_cases h2 : top = objectValue
    · simp only [h1, h2, if_true, if_false, setLast_of_ne_nil _ _ hne, Option.map_some']
      exact ⟨_, rfl, rfl, hlen2 _, appendToken_prefix _ _⟩
    · simp only [h1, h2, if_false]
      exact ⟨_, rfl, rfl, rfl, appendToken_prefix _ _⟩

/-- One step on stacks of equal length that are deep enough for the token:
no panic, the lengths stay equal and follow the delimiter, `vals` only
grows. -/
theorem step_stacks (st : DecState) (tok : Token)
    (hlen : st.typeStack.length = st.stateStack.length)
    (hdepth : (if tok.isClose then 1 else 0) < st.typeStack.length + (if tok.isOpen then 1 else 0)) :
    ∃ st1, step st tok = some st1 ∧ st1.typeStack.length = st1.stateStack.length ∧
      st1.typeStack.length + (if tok.isClose then 1 else 0) =
        st.typeStack.length + (if tok.isOpen then 1 else 0) ∧
      st.vals <+: st1.vals := by
  by_cases hd : ∃ c, tok = .delim c
  · obtain ⟨c, rfl⟩ := hd
    by_cases h1 : c = '['
    · subst h1
      refine ⟨{ st with typeStack := st.typeStack ++ [array],
                        stateStack := st.stateStack ++ [arrayValue] },
        by simp only [step, if_true], ?_, ?_, List.prefix_refl _⟩
      · simp only [List.length_append, List.length_singleton, hlen]
      · simp [Token.isOpen, Token.isClose]
    · by_cases h2 : c = '{'
      · subst h2
        refine ⟨{ st with typeStack := st.typeStack ++ [object],
                          stateStack := st.stateStack ++ [objectKey] },
          by simp only [step, h1, if_false, if_true], ?_, ?_, List.prefix_refl _⟩
        · simp only [List.length_append, List.length_singleton, hlen]
        · simp [Token.isOpen, Token.isClose]
      · by_cases h3 : c = ']' ∨ c = '}'
        · have hclose : (Token.delim c).isClose = true := by
            rcases h3 with h3 | h3 <;> simp [Token.isClose, h3]
          have hopen : (Token.delim c).isOpen = false := by
            simp [Token.isOpen, h1, h2]
          simp only [hclose, hopen, if_true, Bool.false_eq_true, if_false, Nat.add_zero] at hdepth ⊢
          have hne1 : st.typeStack ≠ [] := by
            intro h; rw [h] at hdepth; simp at hdepth
          have hne2 : st.stateStack ≠ [] := by
            intro h; rw [h] at hlen; rw [hlen] at hdepth; simp at hdepth
          refine ⟨{ st with typeStack := st.typeStack.dropLast,
                            stateStack := st.stateStack.dropLast }, ?_, ?_, ?_,
            List.prefix_refl _⟩
          · simp only [step, h1, h2, h3, if_false, if_true, popLast_of_ne_nil _ hne1,
              popLast_of_ne_nil _ hne2]
          · simp only [List.length_dropLast, hlen]
          · simp only [List.length_dropLast]
            omega
        · have hclose : (Token.delim c).isClose = false := by
            simp only [not_or] at h3
            simp [Token.isClose, h3.1, h3.2]
          have hopen : (Token.delim c).isOpen = false := by
            simp [Token.isOpen, h1, h2]
          refine ⟨st, by simp only [step, h1, h2, h3, if_false], hlen, ?_, List.prefix_refl _⟩
          simp [hclose, hopen]
  · have hd1 : ∀ c, tok ≠ .delim c := fun c h => hd ⟨c, h⟩
    have hclose : tok.isClose = false := by
      cases tok <;> first | rfl | exact absurd rfl (hd1 _)
    have hopen : tok.isOpen = false := by
      cases tok <;> first | rfl | exact absurd rfl (hd1 _)
    simp only [hclose, hopen, Bool.false_eq_true, if_false, Nat.add_zero] at hdepth ⊢
    have hne : st.stateStack ≠ [] := by
      intro h; rw [h] at hlen; rw [hlen] at hdepth; simp at hdepth
    obtain ⟨st1, h1, h2, h3, h4⟩ := step_scalar st tok hd1 hne
    exact ⟨st1, h1, by rw [h2, h3, hlen], by rw [h2], h4⟩

theorem opens_cons (tok : Token) (rest : List Token) :
    opens (tok :: rest) = opens rest + (if tok.isOpen then 1 else 0) := by
  simp only [opens, List.countP_cons]

theorem closes_cons (tok : Token) (rest : List Token) :
    closes (tok :: rest) = closes rest + (if tok.isClose then 1 else 0) := by
  simp only [closes, List.countP_cons]

theorem noExcessClose_iff (toks : List Token) :
    noExcessClose toks = true ↔ ∀ p, p <+: toks → closes p ≤ opens p := by
  simp only [noExcessClose, List.all_eq_true, List.mem_inits, decide_eq_true_eq]

/-- The loop on stacks of equal length, over a stream none of whose prefixes
closes more containers than the stacks hold: no panic, the stacks keep equal
lengths, the length follows the delimiters, `vals` only grows. -/
theorem run_stacks : ∀ (toks : List Token) (st : DecState),
    st.typeStack.length = st.stateStack.length →
    (∀ p, p <+: toks → closes p < st.typeStack.length + opens p) →
    ∃ st1, run st toks = some st1 ∧ st1.typeStack.length = st1.stateStack.length ∧
      st1.typeStack.length + closes toks = st.typeStack.length + opens toks ∧
      st.vals <+: st1.vals
  | [], st, hlen, _ => ⟨st, rfl, hlen, rfl, List.prefix_refl _⟩
  | tok :: rest, st, hlen, h => by
    have h1 := h [tok] (by simp)
    rw [closes_cons, opens_cons] at h1
    simp only [closes, opens, List.countP_nil, Nat.zero_add] at h1
    obtain ⟨st1, hs1, hl1, hd1, hv1⟩ := step_stacks st tok hlen h1
    have hrest : ∀ p, p <+: rest → closes p < st1.typeStack.length + opens p := by
      intro p hp
      have := h (tok :: p) (List.prefix_cons_inj tok |>.mpr hp)
      rw [closes_cons, opens_cons] at this
      omega
    obtain ⟨st2, hs2, hl2, hd2, hv2⟩ := run_stacks rest st1 hl1 hrest
    refine ⟨st2, by simp only [run, hs1, hs2], hl2, ?_, hv1.trans hv2⟩
    rw [closes_cons, opens_cons]
    omega

/-! ### Claims on the safety of `UnmarshalJSON` -/

/-- C19. `UnmarshalJSON` never returns an error: on every token stream the
tokenizer can emit before it fails (no prefix with more closing than opening
delimiters) the call completes, returns the nil error and stores the list
accumulated from those tokens.  The list stored for the first tokens `toks`
of a longer stream `toks ++ rest` is a prefix of the list stored for the
longer stream. -/
theorem UnmarshalJSON_never_fails (toks rest : List Token)
    (h : noExcessClose (toks ++ rest) = true) :
    ∃ vals vals1, UnmarshalJSON toks = some vals ∧ UnmarshalJSONError toks = some none ∧
      (run DecState.init toks).map (fun st => st.vals) = some vals ∧
      UnmarshalJSON (toks ++ rest) = some vals1 ∧
      UnmarshalJSONError (toks ++ rest) = some none ∧
      vals <+: vals1 := by
  rw [noExcessClose_iff] at h
  have hinit : DecState.init.typeStack.length = DecState.init.stateStack.length := rfl
  obtain ⟨st1, hs1, hl1, hd1, _⟩ := run_stacks toks DecState.init hinit (by
    intro p hp
    have := h p (hp.trans (List.prefix_append _ _))
    have hone : DecState.init.typeStack.length = 1 := rfl
    omega)
  obtain ⟨st2, hs2, _, _, hv2⟩ := run_stacks rest st1 hl1 (by
    intro p hp
    have := h (toks ++ p) ((List.prefix_append_right_inj toks).mpr hp)
    simp only [closes, opens, List.countP_append] at this hd1 ⊢
    have hone : DecState.init.typeStack.length = 1 := rfl
    omega)
  have hall : run DecState.init (toks ++ rest) = some st2 := by
    rw [run_append, hs1]
    exact hs2
  exact ⟨st1.vals, st2.vals, by simp only [UnmarshalJSON, hs1, Option.map_some'],
    by simp only [UnmarshalJSONError, hs1, Option.map_some'],
    by simp only [hs1, Option.map_some'],
    by simp only [UnmarshalJSON, hall, Option.map_some'],
    by simp only [UnmarshalJSONError, hall, Option.map_some'], hv2⟩

/-- C19 (witness): the truncated document `{"a":["1"` (its first four
tokens) against the well-formed document `{"a":["1"],"b":"c"}`. -/
theorem UnmarshalJSON_never_fails_witness :
    UnmarshalJSON (docNested.tokens.take 4) = some ["1".toList] ∧
    UnmarshalJSONError (docNested.tokens.take 4) = some none ∧
    ∃ vals vals1, UnmarshalJSON (docNested.tokens.take 4) = some vals ∧
      UnmarshalJSONError (docNested.tokens.take 4) = some none ∧
      (run DecState.init (docNested.tokens.take 4)).map (fun st => st.vals) = some vals ∧
      UnmarshalJSON (docNested.tokens.take 4 ++ docNested.tokens.drop 4) = some vals1 ∧
      UnmarshalJSONError (docNested.tokens.take 4 ++ docNested.tokens.drop 4) = some none ∧
      vals <+: vals1 :=
  ⟨by decide, by decide,
   UnmarshalJSON_never_fails (docNested.tokens.take 4) (docNested.tokens.drop 4) (by decide)⟩

/-- C20. On every token stream in which no prefix contains more closing
delimiters than opening delimiters, the loop of `UnmarshalJSON` runs through
every prefix without a panic (no pop and no top-of-stack read out of range),
and after each prefix the container-type stack and the parse-state stack have
the same length, which is 1 plus the number of containers still open, hence at
least 1. -/
theorem UnmarshalJSON_stack_safety (toks : List Token) (h : noExcessClose toks = true) :
    ∀ p, p <+: toks → ∃ st, run DecState.init p = some st ∧
      st.typeStack.length = st.stateStack.length ∧ 1 ≤ st.typeStack.length ∧
      st.typeStack.length + closes p = 1 + opens p := by
  rw [noExcessClose_iff] at h
  intro p hp
  have hinit : DecState.init.typeStack.length = DecState.init.stateStack.length := rfl
  have hone : DecState.init.typeStack.length = 1 := rfl
  obtain ⟨st1, hs1, hl1, hd1, _⟩ := run_stacks p DecState.init hinit (by
    intro q hq
    have := h q (hq.trans hp)
    omega)
  have := h p hp
  exact ⟨st1, hs1, hl1, by omega, by omega⟩

/-- C20 (witness): the five-token prefix `{ "a" [ "1" ]` of the stream of
`{"a":["1"],"b":"c"}`. -/
theorem UnmarshalJSON_stack_safety_witness :
    noExcessClose docNested.tokens = true ∧
    ∃ st, run DecState.init (docNested.tokens.take 5) = some st ∧
      st.typeStack.length = st.stateStack.length ∧ 1 ≤ st.typeStack.length ∧
      st.typeStack.length + closes (docNested.tokens.take 5) =
        1 + opens (docNested.tokens.take 5) :=
  ⟨by decide,
   UnmarshalJSON_stack_safety docNested.tokens (by decide) (docNested.tokens.take 5)
     (List.take_prefix 5 docNested.tokens)⟩

/-! ### Claims on flat documents -/

/-- The token of a non-null scalar is no delimiter and appends the text of the
scalar. -/
theorem scalar_token (doc : JSON) (h : doc.isScalar = true) :
    ∃ tok, doc.tokens = [tok] ∧ (∀ c, tok ≠ .delim c) ∧
      ∀ vals, appendToken vals tok = vals ++ [doc.text] := by
  cases doc with
  | null => simp [JSON.isScalar] at h
  | bool b => exact ⟨.bool b, by simp [JSON.tokens], (fun c hc => by cases hc), fun _ => rfl⟩
  | num f => exact ⟨.float64 f, by simp [JSON.tokens], (fun c hc => by cases hc), fun _ => rfl⟩
  | str x => exact ⟨.string x, by simp [JSON.tokens], (fun c hc => by cases hc), fun _ => rfl⟩
  | arr elems => simp [JSON.isScalar] at h
  | obj members => simp [JSON.isScalar] at h

/-- A scalar token when the top of the state stack is `top`. -/
theorem step_top (st : DecState) (tok : Token) (hd : ∀ c, tok ≠ .delim c) (ss : List Nat)
    (top : Nat) (hss : st.stateStack = ss ++ [top]) :
    step st tok =
      if top = objectKey then some { st with stateStack := ss ++ [objectValue] }
      else if top = objectValue then
        some { st with stateStack := ss ++ [objectKey], vals := appendToken st.vals tok }
      else some { st with vals := appendToken st.vals tok } := by
  have htop : st.stateStack.getLast? = some top := by rw [hss]; exact List.getLast?_concat ss
  have hset : ∀ v, setLast st.stateStack v = some (ss ++ [v]) := by
    intro v
    rw [setLast_of_ne_nil _ _ (by rw [hss]; simp), hss, List.dropLast_concat]
  cases tok with
  | delim c => exact absurd rfl (hd c)
  | bool b => simp only [step, htop, hset, Option.map_some']
  | float64 f => simp only [step, htop, hset, Option.map_some']
  | number n => simp only [step, htop, hset, Option.map_some']
  | string x => simp only [step, htop, hset, Option.map_some']
  | null => simp only [step, htop, hset, Option.map_some']

/-- Scalar elements inside an array frame: each appends its text. -/
theorem run_scalar_elems : ∀ (elems : List JSON) (st : DecState) (ss : List Nat),
    st.stateStack = ss ++ [arrayValue] → (∀ e ∈ elems, e.isScalar = true) →
    run st (JSON.tokensElems elems) =
      some { st with vals := st.vals ++ elems.map JSON.text }
  | [], st, _, _, _ => by simp [JSON.tokensElems, run]
  | e :: rest, st, ss, hss, h => by
    obtain ⟨tok, ht, hd, happ⟩ := scalar_token e (h e (List.mem_cons_self _ _))
    have hstep := step_top st tok hd ss arrayValue hss
    simp only [arrayValue, objectKey, objectValue, Nat.reduceEqDiff, if_false, happ] at hstep
    have ih := run_scalar_elems rest { st with vals := st.vals ++ [e.text] } ss hss
      (fun x hx => h x (List.mem_cons_of_mem _ hx))
    simp only [JSON.tokensElems, ht, List.singleton_append, run, hstep, ih, List.map_cons,
      List.append_assoc]

/-- C16 (counterexample). On the array `[1000000]` the decoder returns
`["1e+06"]`, the text `fmt.Sprint` prints for the `float64` 1000000, and not
the decimal text `"1000000"` of the number. -/
theorem UnmarshalJSON_number_text_counterexample :
    UnmarshalJSON docMillion.tokens = some ["1e+06".toList] ∧
    decimal 1000000 = "1000000".toList ∧
    UnmarshalJSON docMillion.tokens ≠ some [decimal 1000000] := by
  decide

/-- C16 (amended). For every array whose elements are all non-null scalars,
`UnmarshalJSON` returns a list of the same length whose entries are the text
forms of the elements in the array's order: strings verbatim, booleans as
`true` / `false`, and numbers as the text `fmt.Sprint` prints for their
`float64` value. -/
theorem UnmarshalJSON_scalar_array (elems : List JSON)
    (h : ∀ e ∈ elems, e.isScalar = true) :
    UnmarshalJSON (JSON.arr elems).tokens = some (elems.map JSON.text) ∧
    (elems.map JSON.text).length = elems.length ∧
    (∀ x, JSON.text (.str x) = x) ∧
    (∀ b, JSON.text (.bool b) = if b then "true".toList else "false".toList) ∧
    (∀ f, JSON.text (.num f) = f.text) := by
  refine ⟨?_, List.length_map _ _, fun _ => rfl, fun _ => rfl, fun _ => rfl⟩
  have hopen : step DecState.init (.delim '[') =
      some { typeStack := [array, array], stateStack := [arrayValue, arrayValue],
             vals := [] } := rfl
  have helems := run_scalar_elems elems
    { typeStack := [array, array], stateStack := [arrayValue, arrayValue], vals := [] }
    [arrayValue] rfl h
  simp only [UnmarshalJSON, JSON.tokens, run, hopen, run_append, helems, Option.some_bind,
    List.nil_append]
  rfl

/-- C16 (witness): the array `["x", true, 5]` gives `["x", "true", "5"]`. -/
theorem UnmarshalJSON_scalar_array_witness :
    UnmarshalJSON docScalars.tokens = some ["x".toList, "true".toList, "5".toList] :=
  (UnmarshalJSON_scalar_array [.str "x".toList, .bool true, .num (Float64.ofNat 5)]
    (by decide)).1

/-- The slice loop returns a list of fixed points unchanged. -/
theorem serializableElems_fixed (l : List Value) (h : ∀ a ∈ l, serializable a = .ok a) :
    ∀ acc, serializableElems l acc = .ok (acc ++ l) := by
  induction l with
  | nil => intro acc; simp [serializableElems]
  | cons a rest ih =>
    intro acc
    have ha := h a (List.mem_cons_self _ _)
    have hrest := ih (fun b hb => h b (List.mem_cons_of_mem _ hb)) (acc ++ [a])
    simp only [serializableElems, ha, hrest, List.append_assoc, List.singleton_append]

mutual
/-- Every result of `serializable` is a fixed point of `serializable`. -/
theorem serializable_fixed : ∀ (v y : Value), serializable v = .ok y → serializable y = .ok y
  | .scalar s, y, h => by
    simp only [serializable, Except.ok.injEq] at h
    subst h
    rfl
  | .strSlice xs, y, h => by
    simp only [serializable, Except.ok.injEq] at h
    subst h
    rfl
  | .mapSI kvs, y, h => by
    simp only [serializable, Except.ok.injEq] at h
    subst h
    rfl
  | .mapII kvs, y, h => by
    simp only [serializable] at h
    cases he : serializableEntries kvs [] with
    | error err => rw [he] at h; cases h
    | ok m =>
      rw [he] at h
      simp only [Except.ok.injEq] at h
      subst h
      rfl
  | .slice xs, y, h => by
    simp only [serializable] at h
    cases he : serializableElems xs [] with
    | error err => rw [he] at h; cases h
    | ok out =>
      rw [he] at h
      simp only [Except.ok.injEq] at h
      subst h
      have hfix := serializableElems_fixed_out xs [] out (fun a ha => by cases ha) he
      simp only [serializable, serializableElems_fixed out hfix [], List.nil_append]
/-- The slice loop over any elements yields fixed points only. -/
theorem serializableElems_fixed_out : ∀ (xs acc out : List Value),
    (∀ a ∈ acc, serializable a = .ok a) → serializableElems xs acc = .ok out →
    ∀ a ∈ out, serializable a = .ok a
  | [], acc, out, hacc, h => by
    simp only [serializableElems, Except.ok.injEq] at h
    subst h
    exact hacc
  | x :: rest, acc, out, hacc, h => by
    simp only [serializableElems] at h
    cases hx : serializable x with
    | error err => rw [hx] at h; cases h
    | ok val =>
      rw [hx] at h
      have hval := serializable_fixed x val hx
      exact serializableElems_fixed_out rest (acc ++ [val]) out (by
        intro a ha
        rcases List.mem_append.mp ha with ha | ha
        · exact hacc a ha
        · rw [List.mem_singleton.mp ha]; exact hval) h
end

/-! ### Claim on the idempotence of `serializable` -/

/-- C11. Canonicalisation is idempotent: whenever `serializable x` succeeds
with result `y`, `serializable y` succeeds too and returns `y`. -/
theorem serializable_idempotent (x y : Value) (h : serializable x = .ok y) :
    serializable y = .ok y :=
  serializable_fixed x y h

/-- C11 (witness): the result of canonicalising `{"a": [{"b": "x"}], "n": 1}`
is returned unchanged by a second call. -/
theorem serializable_idempotent_witness :
    serializable
      (.mapSI [("a".toList, .slice [.mapSI [("b".toList, .scalar (.str "x".toList))]]),
               ("n".toList, .scalar (.int 1))]) =
      .ok (.mapSI [("a".toList, .slice [.mapSI [("b".toList, .scalar (.str "x".toList))]]),
                   ("n".toList, .scalar (.int 1))]) :=
  serializable_idempotent valueStringKeys _ rfl

/-! ### The decoder never panics on a well-formed document -/

/-- A token that is not a closing delimiter, on stacks of equal, positive
length. -/
theorem step_not_close (st : DecState) (tok : Token) (hc : tok.isClose = false)
    (hlen : st.typeStack.length = st.stateStack.length) (hpos : 1 ≤ st.typeStack.length) :
    ∃ st1, step st tok = some st1 ∧ st1.typeStack.length = st1.stateStack.length ∧
      st1.typeStack.length = st.typeStack.length + (if tok.isOpen then 1 else 0) := by
  obtain ⟨st1, h1, h2, h3, _⟩ := step_stacks st tok hlen (by
    simp only [hc, Bool.false_eq_true, if_false]
    omega)
  simp only [hc, Bool.false_eq_true, if_false, Nat.add_zero] at h3
  exact ⟨st1, h1, h2, h3⟩

/-- A closing delimiter on stacks of equal length at least 2. -/
theorem step_close (st : DecState) (c : Char) (hc : (Token.delim c).isClose = true)
    (hlen : st.typeStack.length = st.stateStack.length) (hpos : 2 ≤ st.typeStack.length) :
    ∃ st1, step st (.delim c) = some st1 ∧ st1.typeStack.length = st1.stateStack.length ∧
      st1.typeStack.length + 1 = st.typeStack.length := by
  have ho : (Token.delim c).isOpen = false := by
    simp only [Token.isClose, Bool.or_eq_true, beq_iff_eq] at hc
    rcases hc with hc | hc <;> subst hc <;> decide
  obtain ⟨st1, h1, h2, h3, _⟩ := step_stacks st (.delim c) hlen (by
    simp only [hc, ho, if_true, Bool.false_eq_true, if_false]
    omega)
  simp only [hc, ho, if_true, Bool.false_eq_true, if_false, Nat.add_zero] at h3
  exact ⟨st1, h1, h2, h3⟩

mutual
/-- The tokens of a well-formed document run without a panic and leave the
stacks at the length they had. -/
theorem run_doc : ∀ (doc : JSON) (st : DecState),
    st.typeStack.length = st.stateStack.length → 1 ≤ st.typeStack.length →
    ∃ st1, run st doc.tokens = some st1 ∧ st1.typeStack.length = st1.stateStack.length ∧
      st1.typeStack.length = st.typeStack.length
  | .null, st, hlen, hpos => by
    obtain ⟨st1, h1, h2, h3⟩ := step_not_close st .null rfl hlen hpos
    exact ⟨st1, by simp only [JSON.tokens, run, h1], h2, by simpa [Token.isOpen] using h3⟩
  | .bool b, st, hlen, hpos => by
    obtain ⟨st1, h1, h2, h3⟩ := step_not_close st (.bool b) rfl hlen hpos
    exact ⟨st1, by simp only [JSON.tokens, run, h1], h2, by simpa [Token.isOpen] using h3⟩
  | .num f, st, hlen, hpos => by
    obtain ⟨st1, h1, h2, h3⟩ := step_not_close st (.float64 f) rfl hlen hpos
    exact ⟨st1, by simp only [JSON.tokens, run, h1], h2, by simpa [Token.isOpen] using h3⟩
  | .str x, st, hlen, hpos => by
    obtain ⟨st1, h1, h2, h3⟩ := step_not_close st (.string x) rfl hlen hpos
    exact ⟨st1, by simp only [JSON.tokens, run, h1], h2, by simpa [Token.isOpen] using h3⟩
  | .arr elems, st, hlen, hpos => by
    obtain ⟨st1, h1, h2, h3⟩ := step_not_close st (.delim '[') (by decide) hlen hpos
    have h3a : st1.typeStack.length = st.typeStack.length + 1 := by
      simpa [Token.isOpen] using h3
    obtain ⟨st2, h4, h5, h6⟩ := run_elems elems st1 h2 (by omega)
    obtain ⟨st3, h7, h8, h9⟩ := step_close st2 ']' (by decide) h5 (by omega)
    refine ⟨st3, ?_, h8, by omega⟩
    simp only [JSON.tokens, run, h1, run_append, h4, Option.some_bind, h7]
  | .obj members, st, hlen, hpos => by
    obtain ⟨st1, h1, h2, h3⟩ := step_not_close st (.delim '{') (by decide) hlen hpos
    have h3a : st1.typeStack.length = st.typeStack.length + 1 := by
      simpa [Token.isOpen] using h3
    obtain ⟨st2, h4, h5, h6⟩ := run_members members st1 h2 (by omega)
    obtain ⟨st3, h7, h8, h9⟩ := step_close st2 '}' (by decide) h5 (by omega)
    refine ⟨st3, ?_, h8, by omega⟩
    simp only [JSON.tokens, run, h1, run_append, h4, Option.some_bind, h7]
/-- The tokens of the elements of an array, likewise. -/
theorem run_elems : ∀ (elems : List JSON) (st : DecState),
    st.typeStack.length = st.stateStack.length → 1 ≤ st.typeStack.length →
    ∃ st1, run st (JSON.tokensElems elems) = some st1 ∧
      st1.typeStack.length = st1.stateStack.length ∧
      st1.typeStack.length = st.typeStack.length
  | [], st, hlen, _ => ⟨st, rfl, hlen, rfl⟩
  | e :: rest, st, hlen, hpos => by
    obtain ⟨st1, h1, h2, h3⟩ := run_doc e st hlen hpos
    obtain ⟨st2, h4, h5, h6⟩ := run_elems rest st1 h2 (by omega)
    refine ⟨st2, ?_, h5, by omega⟩
    simp only [JSON.tokensElems, run_append, h1, Option.some_bind, h4]
/-- The tokens of the members of an object, likewise. -/
theorem run_members : ∀ (members : List (GoString × JSON)) (st : DecState),
    st.typeStack.length = st.stateStack.length → 1 ≤ st.typeStack.length →
    ∃ st1, run st (JSON.tokensMembers members) = some st1 ∧
      st1.typeStack.length = st1.stateStack.length ∧
      st1.typeStack.length = st.typeStack.length
  | [], st, hlen, _ => ⟨st, rfl, hlen, rfl⟩
  | (k, v) :: rest, st, hlen, hpos => by
    obtain ⟨st0, h0, h0a, h0b⟩ := step_not_close st (.string k) rfl hlen hpos
    have h0c : st0.typeStack.length = st.typeStack.length := by
      simpa [Token.isOpen] using h0b
    obtain ⟨st1, h1, h2, h3⟩ := run_doc v st0 h0a (by omega)
    obtain ⟨st2, h4, h5, h6⟩ := run_members rest st1 h2 (by omega)
    refine ⟨st2, ?_, h5, by omega⟩
    simp only [JSON.tokensMembers, run, h0, run_append, h1, Option.some_bind, h4]
end

/-- On the tokens of a well-formed document `UnmarshalJSON` stores a list. -/
theorem UnmarshalJSON_doc (doc : JSON) : ∃ slc, UnmarshalJSON doc.tokens = some slc := by
  obtain ⟨st1, h1, _, _⟩ := run_doc doc DecState.init rfl (by decide)
  exact ⟨st1.vals, by simp only [UnmarshalJSON, h1, Option.map_some']⟩

/-! ### `parsePolicy` -/

theorem mapGet_mapSet {β : Type} (m : List (GoString × β)) (k : GoString) (v : β)
    (k1 : GoString) : mapGet (mapSet m k v) k1 = if k = k1 then some v else mapGet m k1 := by
  induction m with
  | nil => simp [mapSet, mapGet]
  | cons e rest ih =>
    obtain ⟨k0, v0⟩ := e
    by_cases h0 : k0 = k
    · subst h0
      simp only [mapSet, if_true, mapGet]
      by_cases h1 : k0 = k1 <;> simp only [h1, if_true, if_false]
    · simp only [mapSet, h0, if_false, mapGet, ih]
      by_cases h1 : k0 = k1
      · subst h1
        simp only [if_true, Ne.symm h0, if_false]
      · simp only [h1, if_false]

theorem mapGet_of_not_mem {β : Type} (m : List (GoString × β)) (k : GoString)
    (h : k ∉ m.map Prod.fst) : mapGet m k = none := by
  induction m with
  | nil => rfl
  | cons e rest ih =>
    obtain ⟨k0, v0⟩ := e
    simp only [List.map_cons, List.mem_cons, not_or] at h
    simp only [mapGet, Ne.symm h.1, if_false, ih h.2]


/-- What the map built by the loop of `parsePolicy` holds: under a key of
`src` other than `toKey` the value of `src`, under `toKey` the endpoints
parsed from the value of `src`, under any other key what `acc` held. -/
theorem parsePolicyLoop_get (lib : Libs) (keys : Keys) :
    ∀ (src : List (GoString × Value)) (acc out : List (GoString × PolicyValue)),
    (src.map Prod.fst).Nodup → parsePolicyLoop lib keys src acc = .ok out →
    (∀ k v, mapGet src k = some v → k ≠ keys.toKey → mapGet out k = some (.raw v)) ∧
    (∀ v, mapGet src keys.toKey = some v →
      ∃ urls, parseTo lib v = .ok urls ∧ mapGet out keys.toKey = some (.weightedURLs urls)) ∧
    (∀ k, mapGet src k = none → mapGet out k = mapGet acc k)
  | [], acc, out, _, h => by
    simp only [parsePolicyLoop, Except.ok.injEq] at h
    subst h
    exact ⟨fun k v hv => by simp [mapGet] at hv, fun v hv => by simp [mapGet] at hv,
      fun _ _ => rfl⟩
  | (k0, v0) :: rest, acc, out, hnd, h => by
    simp only [List.map_cons, List.nodup_cons] at hnd
    have hnone : mapGet rest k0 = none := mapGet_of_not_mem rest k0 hnd.1
    by_cases hk : k0 = keys.toKey
    · simp only [parsePolicyLoop, hk, if_true] at h
      cases hp : parseTo lib v0 with
      | error err => rw [hp] at h; cases h
      | ok urls =>
        rw [hp] at h
        obtain ⟨ha, hb, hc⟩ := parsePolicyLoop_get lib keys rest _ out hnd.2 h
        refine ⟨?_, ?_, ?_⟩
        · intro k v hv hne
          have hk0 : ¬ k0 = k := fun e => hne (e ▸ hk)
          simp only [mapGet, hk0, if_false] at hv
          exact ha k v hv hne
        · intro v hv
          simp only [mapGet, hk, if_true, Option.some.injEq] at hv
          subst hv
          refine ⟨urls, hp, ?_⟩
          rw [hc keys.toKey (hk ▸ hnone), mapGet_mapSet]
          simp only [if_true]
        · intro k hkn
          by_cases hk0 : k0 = k
          · simp only [mapGet, hk0, if_true] at hkn
            cases hkn
          · simp only [mapGet, hk0, if_false] at hkn
            rw [hc k hkn, mapGet_mapSet]
            simp only [← hk, hk0, if_false]
    · simp only [parsePolicyLoop, hk, if_false] at h
      obtain ⟨ha, hb, hc⟩ := parsePolicyLoop_get lib keys rest _ out hnd.2 h
      refine ⟨?_, ?_, ?_⟩
      · intro k v hv hne
        by_cases hk0 : k0 = k
        · simp only [mapGet, hk0, if_true, Option.some.injEq] at hv
          subst hv
          subst hk0
          rw [hc k0 hnone, mapGet_mapSet]
          simp only [if_true]
        · simp only [mapGet, hk0, if_false] at hv
          exact ha k v hv hne
      · intro v hv
        simp only [mapGet, hk, if_false] at hv
        exact hb v hv
      · intro k hkn
        by_cases hk0 : k0 = k
        · simp only [mapGet, hk0, if_true] at hkn
          cases hkn
        · simp only [mapGet, hk0, if_false] at hkn
          rw [hc k hkn, mapGet_mapSet]
          simp only [hk0, if_false]

/-- The loop of `parsePolicy` succeeds when `parseTo` succeeds on the value
under `toKey`, if there is one. -/
theorem parsePolicyLoop_ok (lib : Libs) (keys : Keys) :
    ∀ (src : List (GoString × Value)) (acc : List (GoString × PolicyValue)),
    (src.map Prod.fst).Nodup →
    (∀ v, mapGet src keys.toKey = some v → ∃ urls, parseTo lib v = .ok urls) →
    ∃ out, parsePolicyLoop lib keys src acc = .ok out
  | [], acc, _, _ => ⟨acc, rfl⟩
  | (k0, v0) :: rest, acc, hnd, h => by
    simp only [List.map_cons, List.nodup_cons] at hnd
    by_cases hk : k0 = keys.toKey
    · obtain ⟨urls, hu⟩ := h v0 (by simp only [mapGet, hk, if_true])
      have hnone : mapGet rest keys.toKey = none := mapGet_of_not_mem rest _ (hk ▸ hnd.1)
      obtain ⟨out, ho⟩ := parsePolicyLoop_ok lib keys rest
        (mapSet acc k0 (.weightedURLs urls)) hnd.2 (by
          intro v hv
          rw [hnone] at hv
          cases hv)
      exact ⟨out, by simp only [parsePolicyLoop, hk, if_true, hu]; rw [← hk]; exact ho⟩
    · obtain ⟨out, ho⟩ := parsePolicyLoop_ok lib keys rest (mapSet acc k0 (.raw v0)) hnd.2 (by
          intro v hv
          exact h v (by simp only [mapGet, hk, if_false]; exact hv))
      exact ⟨out, by simp only [parsePolicyLoop, hk, if_false]; exact ho⟩

/-- The loop of `parsePolicy` fails with the error of `parseTo` on the value
under `toKey`. -/
theorem parsePolicyLoop_error (lib : Libs) (keys : Keys) :
    ∀ (src : List (GoString × Value)) (acc : List (GoString × PolicyValue)) (v : Value)
      (err : DecodeError),
    (src.map Prod.fst).Nodup → mapGet src keys.toKey = some v → parseTo lib v = .error err →
    parsePolicyLoop lib keys src acc = .error err
  | [], _, _, _, _, hv, _ => by simp [mapGet] at hv
  | (k0, v0) :: rest, acc, v, err, hnd, hv, he => by
    simp only [List.map_cons, List.nodup_cons] at hnd
    by_cases hk : k0 = keys.toKey
    · simp only [mapGet, hk, if_true, Option.some.injEq] at hv
      subst hv
      simp only [parsePolicyLoop, hk, if_true, he]
    · simp only [mapGet, hk, if_false] at hv
      simp only [parsePolicyLoop, hk, if_false]
      exact parsePolicyLoop_error lib keys rest _ v err hnd.2 hv he

/-! ### Claims on `parsePolicy` -/

/-- C12 (counterexample). The record `{"options": "x", "y": 2}` holds the
derived options key (here `options`), which is not the destination key.
`parsePolicy` succeeds, and the output holds under `options` the derived
`Cluster`, not the value `"x"` of the record. -/
theorem parsePolicy_options_key_counterexample :
    parsePolicy goLibs specKeys srcWithOptions = .ok
      [("options".toList, .cluster { text := "\x7b\x7d".toList }),
       ("y".toList, .raw (.scalar (.int 2)))] ∧
    mapGet srcWithOptions "options".toList = some (.scalar (.str "x".toList)) ∧
    "options".toList ≠ specKeys.toKey ∧
    mapGet [("options".toList, PolicyValue.cluster { text := "\x7b\x7d".toList }),
            ("y".toList, PolicyValue.raw (.scalar (.int 2)))] "options".toList ≠
      some (.raw (.scalar (.str "x".toList))) :=
  ⟨rfl, rfl, by decide, by
    intro h
    simp only [mapGet, if_true, Option.some.injEq] at h
    cases h⟩

/-- C12 (amended). For every raw policy record `src` on which `parsePolicy`
succeeds, every key of `src` other than the destination key and the derived
options key is copied verbatim; the derived options key is always present and
holds the `Cluster` parsed from the whole of `src`, also when `src` itself has
a value under that key; and the keys of the output are exactly the keys of
`src` plus the derived options key. -/
theorem parsePolicy_copies (lib : Libs) (keys : Keys) (src : List (GoString × Value))
    (out : List (GoString × PolicyValue)) (hnd : (src.map Prod.fst).Nodup)
    (h : parsePolicy lib keys src = .ok out) :
    (∀ k v, mapGet src k = some v → k ≠ keys.toKey → k ≠ keys.envoyOptsKey →
      mapGet out k = some (.raw v)) ∧
    (∃ c, parseEnvoyClusterOpts lib src = .ok c ∧
      mapGet out keys.envoyOptsKey = some (.cluster c)) ∧
    (∀ k, (mapGet out k).isSome ↔ ((mapGet src k).isSome ∨ k = keys.envoyOptsKey)) := by
  unfold parsePolicy at h
  cases hl : parsePolicyLoop lib keys src [] with
  | error err => rw [hl] at h; cases h
  | ok out0 =>
    rw [hl] at h
    cases hc : parseEnvoyClusterOpts lib src with
    | error err => simp only [hc] at h; cases h
    | ok c =>
      simp only [hc, Except.ok.injEq] at h
      subst h
      obtain ⟨ha, hb, hn⟩ := parsePolicyLoop_get lib keys src [] out0 hnd hl
      refine ⟨?_, ⟨c, rfl, by rw [mapGet_mapSet]; simp only [if_true]⟩, ?_⟩
      · intro k v hv h1 h2
        rw [mapGet_mapSet, if_neg (Ne.symm h2)]
        exact ha k v hv h1
      · intro k
        rw [mapGet_mapSet]
        by_cases he : keys.envoyOptsKey = k
        · simp only [he, if_true, Option.isSome_some, or_true]
        · have he1 : ¬ k = keys.envoyOptsKey := fun e => he e.symm
          simp only [he, if_false, he1, or_false]
          cases hs : mapGet src k with
          | none => rw [hn k hs]; rfl
          | some v =>
            by_cases hk : k = keys.toKey
            · subst hk
              obtain ⟨urls, _, hu⟩ := hb v hs
              simp only [hu, Option.isSome_some]
            · simp only [ha k v hs hk, Option.isSome_some]

/-- C12 (witness): in the output for
`{"destination": ["https://a,1","https://b,2"], "x": 1}` the key `x` holds
the value 1 of the record and the key `options` holds the derived `Cluster`. -/
theorem parsePolicy_copies_witness :
    mapGet [("destination".toList, PolicyValue.weightedURLs groupWeighted),
            ("x".toList, .raw (.scalar (.int 1))),
            ("options".toList, .cluster { text := "\x7b\x7d".toList })] "x".toList =
      some (.raw (.scalar (.int 1))) :=
  (parsePolicy_copies goLibs specKeys srcPolicy _ (by decide) rfl).1 "x".toList
    (.scalar (.int 1)) rfl (by decide) (by decide)

/-- C13. For every raw policy record whose value under the destination key is
`raw` and on which the options parse succeeds: if `json.Marshal` fails on
`raw`, `parsePolicy` fails with that error; otherwise the JSON written for
`raw` decodes to a string list `slc`, `parsePolicy` succeeds iff
`ParseWeightedUrls` succeeds on `slc`, on success the output holds that
endpoint group under the destination key, and on failure `parsePolicy` returns
the error of `ParseWeightedUrls` and no map. -/
theorem parsePolicy_destination (lib : Libs) (keys : Keys) (src : List (GoString × Value))
    (raw : Value) (c : Cluster) (hnd : (src.map Prod.fst).Nodup)
    (hne : keys.toKey ≠ keys.envoyOptsKey) (hsrc : mapGet src keys.toKey = some raw)
    (hopts : parseEnvoyClusterOpts lib src = .ok c) :
    (∀ msg, lib.Marshal raw = .error msg → parsePolicy lib keys src = .error (.json msg)) ∧
    (∀ doc, lib.Marshal raw = .ok doc →
      ∃ slc, UnmarshalJSON doc.tokens = some slc ∧
        ((∃ out, parsePolicy lib keys src = .ok out) ↔
          (∃ g, ParseWeightedUrls lib.url slc = .ok g)) ∧
        (∀ g, ParseWeightedUrls lib.url slc = .ok g →
          ∃ out, parsePolicy lib keys src = .ok out ∧
            mapGet out keys.toKey = some (.weightedURLs g)) ∧
        (∀ err, ParseWeightedUrls lib.url slc = .error err →
          parsePolicy lib keys src = .error (.config err))) := by
  constructor
  · intro msg hm
    have hp : parseTo lib raw = .error (.json msg) := by simp only [parseTo, hm]
    simp only [parsePolicy, parsePolicyLoop_error lib keys src [] raw _ hnd hsrc hp]
  · intro doc hm
    obtain ⟨slc, hslc⟩ := UnmarshalJSON_doc doc
    have hok : ∀ g, ParseWeightedUrls lib.url slc = .ok g →
        ∃ out, parsePolicy lib keys src = .ok out ∧
          mapGet out keys.toKey = some (.weightedURLs g) := by
      intro g hg
      have hp : parseTo lib raw = .ok g := by simp only [parseTo, hm, hslc, hg]
      obtain ⟨out0, ho⟩ := parsePolicyLoop_ok lib keys src [] hnd (by
        intro v hv
        rw [hsrc] at hv
        cases hv
        exact ⟨g, hp⟩)
      obtain ⟨_, hb, _⟩ := parsePolicyLoop_get lib keys src [] out0 hnd ho
      obtain ⟨urls, hu1, hu2⟩ := hb raw hsrc
      rw [hp] at hu1
      cases hu1
      refine ⟨mapSet out0 keys.envoyOptsKey (.cluster c), by simp only [parsePolicy, ho, hopts],
        ?_⟩
      rw [mapGet_mapSet, if_neg (Ne.symm hne)]
      exact hu2
    have herr : ∀ err, ParseWeightedUrls lib.url slc = .error err →
        parsePolicy lib keys src = .error (.config err) := by
      intro err he
      have hp : parseTo lib raw = .error (.config err) := by simp only [parseTo, hm, hslc, he]
      simp only [parsePolicy, parsePolicyLoop_error lib keys src [] raw _ hnd hsrc hp]
    refine ⟨slc, hslc, ⟨?_, ?_⟩, hok, herr⟩
    · rintro ⟨out, ho⟩
      cases hg : ParseWeightedUrls lib.url slc with
      | ok g => exact ⟨g, rfl⟩
      | error err =>
        rw [herr err hg] at ho
        cases ho
    · rintro ⟨g, hg⟩
      obtain ⟨out, ho, _⟩ := hok g hg
      exact ⟨out, ho⟩

/-- C13 (witness): the record
`{"destination": ["https://a,1","https://b,2"], "x": 1}` yields the two
weighted endpoints in order under the destination key. -/
theorem parsePolicy_destination_witness :
    parsePolicy goLibs specKeys srcPolicy = .ok
      [("destination".toList, .weightedURLs groupWeighted),
       ("x".toList, .raw (.scalar (.int 1))),
       ("options".toList, .cluster { text := "\x7b\x7d".toList })] ∧
    ∃ slc, UnmarshalJSON
        (JSON.arr [.str "https://a,1".toList, .str "https://b,2".toList]).tokens = some slc ∧
      ((∃ out, parsePolicy goLibs specKeys srcPolicy = .ok out) ↔
        (∃ g, ParseWeightedUrls goLibs.url slc = .ok g)) ∧
      (∀ g, ParseWeightedUrls goLibs.url slc = .ok g →
        ∃ out, parsePolicy goLibs specKeys srcPolicy = .ok out ∧
          mapGet out specKeys.toKey = some (.weightedURLs g)) ∧
      (∀ err, ParseWeightedUrls goLibs.url slc = .error err →
        parsePolicy goLibs specKeys srcPolicy = .error (.config err)) :=
  ⟨rfl,
   (parsePolicy_destination goLibs specKeys srcPolicy
      (.slice [.scalar (.str "https://a,1".toList), .scalar (.str "https://b,2".toList)])
      { text := "\x7b\x7d".toList } (by decide) (by decide) rfl rfl).2
      (JSON.arr [.str "https://a,1".toList, .str "https://b,2".toList]) rfl⟩

/-! ### Claims on the decode hooks -/

/-- C14. With the target type `[]Policy`: on a `[]string` whose length is not
1 (the empty one included) the hook of `DecodePolicyBase64Hook` fails with the
expecting-one-block error; on an input that is not a `[]string` it returns the
input unchanged; on a one-element `[]string` a base64 failure and a YAML
failure are returned as errors, and otherwise the decoded list of maps is
returned. -/
theorem DecodePolicyBase64Hook_shapes (lib : BlockLibs) (f : GoType) :
    (∀ str : List GoString, str.length ≠ 1 →
      DecodePolicyBase64Hook lib f .PolicySlice (.strSlice str) =
        .error (.expectingOne str.length)) ∧
    DecodePolicyBase64Hook lib f .PolicySlice (.strSlice []) = .error (.expectingOne 0) ∧
    (∀ data : Value, (∀ str, data ≠ .strSlice str) →
      DecodePolicyBase64Hook lib f .PolicySlice data = .ok (.value data)) ∧
    (∀ str0 msg, lib.Base64Decode str0 = .error msg →
      DecodePolicyBase64Hook lib f .PolicySlice (.strSlice [str0]) =
        .error (.base64Decoding msg)) ∧
    (∀ str0 bytes msg, lib.Base64Decode str0 = .ok bytes →
      lib.YamlUnmarshal bytes = .error msg →
      DecodePolicyBase64Hook lib f .PolicySlice (.strSlice [str0]) =
        .error (.yamlParsing msg)) ∧
    (∀ str0 bytes out, lib.Base64Decode str0 = .ok bytes →
      lib.YamlUnmarshal bytes = .ok out →
      DecodePolicyBase64Hook lib f .PolicySlice (.strSlice [str0]) = .ok (.maps out)) := by
  refine ⟨?_, rfl, ?_, ?_, ?_, ?_⟩
  · intro str hlen
    simp only [DecodePolicyBase64Hook, ne_eq, not_true_eq_false, if_false, hlen,
      not_false_eq_true, if_true]
  · intro data hd
    cases data with
    | strSlice str => exact absurd rfl (hd str)
    | scalar x => rfl
    | slice xs => rfl
    | mapII kvs => rfl
    | mapSI kvs => rfl
  · intro str0 msg h
    simp [DecodePolicyBase64Hook, h]
  · intro str0 bytes msg h1 h2
    simp [DecodePolicyBase64Hook, h1, h2]
  · intro str0 bytes out h1 h2
    simp [DecodePolicyBase64Hook, h1, h2]

/-- C14 (witness): a two-element `[]string` fails with "expecting 1, got 2",
a one-element one whose text is not base64 fails with the base64 error, and a
`[]interface{}` is passed through. -/
theorem DecodePolicyBase64Hook_shapes_witness :
    DecodePolicyBase64Hook rejectingBlockLibs (.other "string".toList) .PolicySlice
        (.strSlice ["a".toList, "b".toList]) = .error (.expectingOne 2) ∧
    DecodePolicyBase64Hook rejectingBlockLibs (.other "string".toList) .PolicySlice
        (.strSlice ["!".toList]) = .error (.base64Decoding "illegal base64 data".toList) ∧
    DecodePolicyBase64Hook rejectingBlockLibs (.other "string".toList) .PolicySlice
        (.slice [.scalar (.str "a".toList)]) = .ok (.value (.slice [.scalar (.str "a".toList)])) :=
  have h := DecodePolicyBase64Hook_shapes rejectingBlockLibs (.other "string".toList)
  ⟨h.1 ["a".toList, "b".toList] (by decide), h.2.2.2.1 "!".toList _ rfl,
   h.2.2.1 (.slice [.scalar (.str "a".toList)]) (fun str hc => by cases hc)⟩

/-- C15. For every requested target type other than `Policy` the hook of
`DecodePolicyHookFunc` returns its input unchanged with no error, whatever the
input; for every requested target type other than `[]Policy` so does the hook
of `DecodePolicyBase64Hook`. -/
theorem hooks_passthrough (lib : Libs) (blib : BlockLibs) (keys : Keys) (f t : GoType)
    (data : Value) :
    (t ≠ .Policy → DecodePolicyHookFunc lib keys f t data = .ok (.value data)) ∧
    (t ≠ .PolicySlice → DecodePolicyBase64Hook blib f t data = .ok (.value data)) := by
  constructor
  · intro ht
    simp only [DecodePolicyHookFunc, ht, ne_eq, not_false_eq_true, if_true]
  · intro ht
    simp only [DecodePolicyBase64Hook, ht, ne_eq, not_false_eq_true, if_true]

/-- C15 (witness): the map `{1: "x"}`, which the policy hook rejects for the
target type `Policy`, is passed through by both hooks for the target type
`string`. -/
theorem hooks_passthrough_witness :
    DecodePolicyHookFunc goLibs specKeys (.other "string".toList) .Policy valueIntKey =
      .error (.config .errKeysMustBeStrings) ∧
    DecodePolicyHookFunc goLibs specKeys (.other "string".toList) (.other "string".toList)
      valueIntKey = .ok (.value valueIntKey) ∧
    DecodePolicyBase64Hook rejectingBlockLibs (.other "string".toList) (.other "string".toList)
      valueIntKey = .ok (.value valueIntKey) :=
  have h := hooks_passthrough goLibs rejectingBlockLibs specKeys (.other "string".toList)
    (.other "string".toList) valueIntKey
  ⟨rfl, h.1 (by decide), h.2 (by decide)⟩

end Config
